import Mathlib

set_option maxHeartbeats 1000000

/-!
Shallow embedding of tinyconfig 3.0.0 (src/tinyconfig.c) and verification of
the specification's claims about it.

Modelling conventions:
* Byte buffers are `List Char`; the NUL byte is `nulc`.
* The file buffer handed to `tc_parse_config` is `malloc(file_size + 1)` bytes
  with `file_buffer[bytes_read] = '\0'`; reading index `i ≤ bytes_read` is in
  bounds (`readAt` returns the byte, index `bytes_read` reads the terminator),
  reading any larger index is an out-of-bounds access and `readAt` returns
  `none`, which the parser model surfaces as `ParseOut.oobRead`.
* The configuration arena (`static void *buffer[...]`) stores, per entry, a
  `size_t` header followed by `TC_LINE_MAX_SIZE` chars.  We model each slot as
  a `tc_line` record: `offset` is the header, `chars` the 64 characters after
  it.  `header_write`/`header_read`/`line_get` of the C code become field
  access plus list indexing.  A char store one past the 64-char region (which
  in C lands inside the - oversized - static allocation and is later
  overwritten or never read) is dropped by `setN`, which is observationally
  equivalent for the API.
* C loops become fuel-indexed structural recursions; the fuel passed by the
  top-level entry points is provably sufficient, and exhaustion is a distinct
  `fuelOut` result that is never produced at those fuels.
* `size_t` arithmetic that can wrap (`offset - 1` in the lookup loops,
  `string_trim_end` running off the front) is modelled with the exact 64-bit
  wraparound value.
-/

def nulc : Char := Char.ofNat 0

def TC_CONFIG_MAX_SIZE : Nat := 20

def TC_LINE_MAX_SIZE : Nat := 64

/-- Generic list read with default, mirroring raw pointer indexing. -/
def getN {α : Type} (d : α) : List α → Nat → α
  | [], _ => d
  | a :: _, 0 => a
  | _ :: t, n+1 => getN d t n

/-- Generic list write; an out-of-range index writes nothing (see the header
comment on the oversized static arena). -/
def setN {α : Type} : List α → Nat → α → List α
  | [], _, _ => []
  | _ :: t, 0, a => a :: t
  | b :: t, n+1, a => b :: setN t n a

/-- One configuration slot: the `size_t` offset header plus the 64-byte line. -/
structure tc_line where
  offset : Nat
  chars : List Char
deriving DecidableEq

instance : Inhabited tc_line := ⟨⟨0, List.replicate TC_LINE_MAX_SIZE nulc⟩⟩

/-- The `tc_config` struct: `buffer` (as a list of line slots) and `size`. -/
structure tc_config where
  lines : List tc_line
  size : Nat
deriving DecidableEq

instance : Inhabited tc_config := ⟨⟨[], 0⟩⟩

/-- The static arena of `tc_load_config` before any parse: 20 zeroed slots. -/
def initConfig : tc_config := ⟨List.replicate TC_CONFIG_MAX_SIZE default, 0⟩

/-- Read byte `i` of the file buffer (`bytes_read = buf.length`); index
`buf.length` reads the appended NUL terminator, larger indices are
out-of-bounds reads of the allocation. -/
def readAt (buf : List Char) (i : Nat) : Option Char :=
  if i < buf.length then some (getN nulc buf i)
  else if i = buf.length then some nulc
  else none

/-- In-bounds byte view used to state properties (`buf[i]` with the NUL at
`buf.length`). -/
def bufAt (buf : List Char) (i : Nat) : Char := getN nulc buf i

/-- C `isalpha` on the ASCII range. -/
def isalpha (c : Char) : Bool :=
  (('A' ≤ c) && (c ≤ 'Z')) || (('a' ≤ c) && (c ≤ 'z'))

/-- C `isdigit` on the ASCII range. -/
def isdigit (c : Char) : Bool :=
  ('0' ≤ c) && (c ≤ '9')

/-- The 64-bit `size_t` subtraction `a - 1`, wrapping at zero as C does. -/
def sub_one_64 (a : Nat) : Nat :=
  if a = 0 then 2 ^ 64 - 1 else a - 1

/-- Loop body of `key_compare`: compare `key[i]` with `compared[i]` for
`key_end` positions starting at `i`.  The C `key` argument is a NUL-terminated
string, so reading just past its last char yields `'\0'`, which `getN nulc`
reproduces. -/
def kc_loop (key compared : List Char) : Nat → Nat → Bool
  | _, 0 => true
  | i, k+1 =>
    if getN nulc key i ≠ getN nulc compared i then false
    else kc_loop key compared (i+1) k

/-- Model of `key_compare` from the source (the trailing `if (i < key_end)` there is
dead code and drops out). -/
def key_compare (key : List Char) (key_end : Nat) (compared : List Char) : Bool :=
  kc_loop key compared 0 key_end

/-- Forward char-by-char copy loop shared by both copy helpers:
`target[tIdx+i] = source[sIdx+i]` for `i < count`. -/
def copy_fwd (source : List Char) : Nat → List Char → Nat → Nat → List Char
  | _, target, _, 0 => target
  | sIdx, target, tIdx, k+1 =>
    copy_fwd source (sIdx+1) (setN target tIdx (getN nulc source sIdx)) (tIdx+1) k

/-- Model of `string_copy_slice`: copy `source[start..end_]` inclusive to the target
(the C target pointer is the line's char region at offset `tIdx`). -/
def string_copy_slice (source : List Char) (start end_ : Nat) (target : List Char)
    (tIdx : Nat) : List Char :=
  copy_fwd source start target tIdx (end_ - start + 1)

/-- Model of `string_copy_slice_null`: as `string_copy_slice` but with a final NUL. -/
def string_copy_slice_null (source : List Char) (start end_ : Nat) (target : List Char)
    (tIdx : Nat) : List Char :=
  setN (copy_fwd source start target tIdx (end_ - start + 1))
    (tIdx + (end_ - start + 1)) nulc

/-- Model of `string_trim_end`: walk left from `position` over spaces; on an all-space
run the C `do/while (value_end--)` wraps the `size_t` to `2^64 - 1`. -/
def string_trim_end (source : List Char) : Nat → Nat
  | 0 => if getN nulc source 0 ≠ ' ' then 0 else 2 ^ 64 - 1
  | p+1 => if getN nulc source (p+1) ≠ ' ' then p+1 else string_trim_end source p

/-- Scan-loop outcome: the final `pos`, an out-of-bounds read, or (never at
the fuels used) fuel exhaustion. -/
inductive ScanRes where
  | found (pos : Nat)
  | oobRead
  | fuelOut
deriving DecidableEq

/-- Comment skip: `while ((c = file_buffer[pos+1]) != '\n' || c == '\0') pos++;`
(the second disjunct is dead code but kept verbatim). -/
def commentLoop (buf : List Char) : Nat → Nat → ScanRes
  | 0, _ => .fuelOut
  | fuel+1, pos =>
    match readAt buf (pos+1) with
    | none => .oobRead
    | some c => if c ≠ '\n' ∨ c = nulc then commentLoop buf fuel (pos+1) else .found pos

/-- Invalid-key recovery: `while ((c = file_buffer[pos+1]) != '\n') pos++;`. -/
def skipLine (buf : List Char) : Nat → Nat → ScanRes
  | 0, _ => .fuelOut
  | fuel+1, pos =>
    match readAt buf (pos+1) with
    | none => .oobRead
    | some c => if c ≠ '\n' then skipLine buf fuel (pos+1) else .found pos

/-- Key scan for letter keys: `while (isalpha(c = buf[pos+1]) || c == '_') pos++;`. -/
def alphaKeyLoop (buf : List Char) : Nat → Nat → ScanRes
  | 0, _ => .fuelOut
  | fuel+1, pos =>
    match readAt buf (pos+1) with
    | none => .oobRead
    | some c => if isalpha c || c = '_' then alphaKeyLoop buf fuel (pos+1) else .found pos

/-- Key scan for numeric keys: `while (isdigit(c = buf[pos+1])) pos++;`. -/
def digitKeyLoop (buf : List Char) : Nat → Nat → ScanRes
  | 0, _ => .fuelOut
  | fuel+1, pos =>
    match readAt buf (pos+1) with
    | none => .oobRead
    | some c => if isdigit c then digitKeyLoop buf fuel (pos+1) else .found pos

/-- Value scan: `for (;;) { c = buf[pos+1]; if (c=='\r'||c=='\n'||c=='\0'||c=='#') break; pos++; }`. -/
def valueLoop (buf : List Char) : Nat → Nat → ScanRes
  | 0, _ => .fuelOut
  | fuel+1, pos =>
    match readAt buf (pos+1) with
    | none => .oobRead
    | some c =>
      if c = '\r' ∨ c = '\n' ∨ c = nulc ∨ c = '#' then .found pos
      else valueLoop buf fuel (pos+1)

/-- The five `goto error` sites of `tc_parse_config`, each reporting the
current `current_line` counter. -/
inductive ParseErr where
  | invalidValue (line : Nat)
  | lineOverflow (line : Nat)
  | invalidKey (line : Nat)
  | configFull (line : Nat)
  | keyOverflow (line : Nat)
deriving DecidableEq

/-- The `current_line` value an error site reports (via `ERROR_REPORT`). -/
def errLineNum : ParseErr → Nat
  | .invalidValue l => l
  | .lineOverflow l => l
  | .invalidKey l => l
  | .configFull l => l
  | .keyOverflow l => l

/-- Result of `tc_parse_config`: `ok`/`err` carry the config as left behind
(the C function mutates `config` through its pointer and returns a bool);
`oobRead` marks an out-of-bounds buffer read the C code would perform. -/
inductive ParseOut where
  | ok (cfg : tc_config)
  | err (e : ParseErr) (cfg : tc_config)
  | oobRead
  | fuelOut
deriving DecidableEq

/-- Key-branch tail of the lexer (checks, header write, key copy, `'='`). -/
def keyFinish (buf : List Char) (start_pos pos' current_line : Nat) (cfg : tc_config) :
    ParseErr ⊕ (tc_config × Nat) :=
  let key_size := pos' - start_pos
  if cfg.size = TC_CONFIG_MAX_SIZE then .inl (.configFull current_line)
  else if key_size ≥ TC_LINE_MAX_SIZE then .inl (.keyOverflow current_line)
  else
    let line := getN default cfg.lines current_line
    let chars1 := string_copy_slice buf start_pos pos' line.chars 0
    let chars2 := setN chars1 (key_size + 1) '='
    .inr (⟨setN cfg.lines current_line ⟨key_size + 2, chars2⟩, cfg.size⟩, key_size)

/-- The main lexer loop of `tc_parse_config`, one recursive call per
iteration of the C `for (pos = 0; pos < file_bytes_read; pos++)` loop.
State: `pos`, `current_line`, `key_size`, `reading_value`, `cfg`. -/
def parseGo (buf : List Char) : Nat → Nat → Nat → Nat → Bool → tc_config → ParseOut
  | 0, _, _, _, _, _ => .fuelOut
  | fuel+1, pos, current_line, key_size, reading_value, cfg =>
    if pos < buf.length then
      let c := getN nulc buf pos
      if c = '\r' ∨ c = '\n' ∨ c = ' ' ∨ c = '\t' then
        parseGo buf fuel (pos+1) current_line key_size reading_value cfg
      else if c = '#' then
        match commentLoop buf (buf.length + 2) pos with
        | .found p => parseGo buf fuel (p+1) current_line key_size reading_value cfg
        | .oobRead => .oobRead
        | .fuelOut => .fuelOut
      else if c = '=' then
        parseGo buf fuel (pos+1) current_line key_size true cfg
      else if reading_value then
        if isalpha c || isdigit c || c = '-' || c = '.' then
          match valueLoop buf (buf.length + 2) pos with
          | .found pos' =>
            let start_pos := pos
            let value_size := pos' - start_pos
            if value_size + key_size + 2 ≥ TC_LINE_MAX_SIZE then
              .err (.lineOverflow current_line) cfg
            else
              let line := getN default cfg.lines current_line
              let trimEnd := string_trim_end buf pos'
              let chars' := string_copy_slice_null buf start_pos trimEnd line.chars (key_size + 2)
              let cfg' : tc_config :=
                ⟨setN cfg.lines current_line ⟨line.offset, chars'⟩, cfg.size + 1⟩
              parseGo buf fuel (pos'+1) (current_line+1) key_size false cfg'
          | .oobRead => .oobRead
          | .fuelOut => .fuelOut
        else .err (.invalidValue current_line) cfg
      else if isalpha c then
        match alphaKeyLoop buf (buf.length + 2) pos with
        | .found pos' =>
          match keyFinish buf pos pos' current_line cfg with
          | .inl e => .err e cfg
          | .inr (cfg', ks) => parseGo buf fuel (pos'+1) current_line ks false cfg'
        | .oobRead => .oobRead
        | .fuelOut => .fuelOut
      else if isdigit c then
        match digitKeyLoop buf (buf.length + 2) pos with
        | .found pos' =>
          match keyFinish buf pos pos' current_line cfg with
          | .inl e => .err e cfg
          | .inr (cfg', ks) => parseGo buf fuel (pos'+1) current_line ks false cfg'
        | .oobRead => .oobRead
        | .fuelOut => .fuelOut
      else
        match skipLine buf (buf.length + 2) pos with
        | .found _ => .err (.invalidKey current_line) cfg
        | .oobRead => .oobRead
        | .fuelOut => .fuelOut
    else .ok cfg

/-- Model of `tc_parse_config` on a buffer of `bytes_read = buf.length` bytes. -/
def tc_parse_config (cfg : tc_config) (buf : List Char) : ParseOut :=
  parseGo buf (buf.length + 2) 0 0 0 false cfg

/-- Model of `tc_load_config` with the file contents already read: an empty read is an
error before the parser runs (config untouched); otherwise `config->buffer`
stays the static arena and `config->size` is reset to 0. -/
def tc_load_config (cfg : tc_config) (content : List Char) : Option ParseOut :=
  if content.length = 0 then none
  else some (tc_parse_config ⟨cfg.lines, 0⟩ content)

/-- The string a C `printf("%s")`/`fprintf("%s")` would emit from a char
region: everything before the first NUL. -/
def cString : List Char → List Char
  | [] => []
  | c :: rest => if c = nulc then [] else c :: cString rest

/-- Loop of `tc_get_value` over `i < config->size` (list node `i` paired with
the remaining iteration count). -/
def get_loop (key : List Char) : List tc_line → Nat → Option (List Char)
  | _, 0 => none
  | [], _+1 => none
  | l :: rest, n+1 =>
    if key_compare key (sub_one_64 l.offset) l.chars then
      some (cString (l.chars.drop l.offset))
    else get_loop key rest n

/-- Model of `tc_get_value`: first match wins; the returned `char *` into the line is
modelled as the NUL-terminated string it points at. -/
def tc_get_value (cfg : tc_config) (key : List Char) : Option (List Char) :=
  get_loop key cfg.lines cfg.size

/-- Loop of `tc_set_value`: overwrite the value region of the first matching
line (in C in place; here by rebuilding the list). -/
def set_loop (key new_value : List Char) : List tc_line → Nat → Option (List tc_line)
  | _, 0 => none
  | [], _+1 => none
  | l :: rest, n+1 =>
    if key_compare key (sub_one_64 l.offset) l.chars then
      some (⟨l.offset,
        string_copy_slice_null new_value 0 (new_value.length - 1) l.chars l.offset⟩ :: rest)
    else
      match set_loop key new_value rest n with
      | some rest' => some (l :: rest')
      | none => none

/-- Model of `tc_set_value` (NDEBUG semantics: the nonempty-string asserts are gone);
`none` models the C `NULL` return, in which case nothing was written. -/
def tc_set_value (cfg : tc_config) (key new_value : List Char) : Option tc_config :=
  if key.length + new_value.length + 2 > TC_LINE_MAX_SIZE then none
  else
    match set_loop key new_value cfg.lines cfg.size with
    | some lines' => some ⟨lines', cfg.size⟩
    | none => none

/-- Loop of `tc_save_to_file`: one `fprintf(file, "%s\n", key_start)` per
entry `i < config->size`. -/
def save_take : List tc_line → Nat → List Char
  | _, 0 => []
  | [], _+1 => []
  | l :: rest, n+1 => cString l.chars ++ '\n' :: save_take rest n

/-- Model of `tc_save_to_file`, returning the bytes written to the file. -/
def tc_save_to_file (cfg : tc_config) : List Char :=
  save_take cfg.lines cfg.size

/-- Convert a Lean string literal to the byte-list form used throughout. -/
def str (s : String) : List Char := s.toList

/-- Projection: did `tc_load_config` succeed? -/
def load_succeeded : Option ParseOut → Bool
  | some (.ok _) => true
  | _ => false

/-- Projection: the store as left behind by `tc_load_config` (also after a
failed parse, which leaves the partially filled arena in place). -/
def load_config : Option ParseOut → tc_config
  | some (.ok c) => c
  | some (.err _ c) => c
  | _ => default

/-- Projection: entry count left in the store. -/
def load_size (r : Option ParseOut) : Nat := (load_config r).size

/-- Projection: the `current_line` number a parse failure reported. -/
def err_line : Option ParseOut → Option Nat
  | some (.err e _) => some (errLineNum e)
  | _ => none

/-- Projection: line slot `i` of the store left behind by a load. -/
def load_line (r : Option ParseOut) (i : Nat) : tc_line :=
  getN default (load_config r).lines i

/-- The key bytes of a stored entry: the chars before the `'='` the offset
header points just past (`offset - 1` of them, as `tc_get_value` reads). -/
def storedKey (l : tc_line) : List Char := l.chars.take (sub_one_64 l.offset)

/-- The value bytes of a stored entry: the NUL-terminated string at
`&key_start[offset]`, exactly what `tc_get_value` returns. -/
def storedValue (l : tc_line) : List Char := cString (l.chars.drop l.offset)

/-- The ordered (key, value) pairs of the first `n` line slots. -/
def entriesTake : List tc_line → Nat → List (List Char × List Char)
  | _, 0 => []
  | [], _+1 => []
  | l :: rest, n+1 => (storedKey l, storedValue l) :: entriesTake rest n

/-- The ordered (key, value) pairs a store exposes. -/
def entriesOf (cfg : tc_config) : List (List Char × List Char) :=
  entriesTake cfg.lines cfg.size

/-- All chars of a list satisfy `p`. -/
def allChars (p : Char → Bool) : List Char → Bool
  | [] => true
  | c :: rest => p c && allChars p rest

/-- Whether `a` is a leading segment of `b`. -/
def isPref : List Char → List Char → Bool
  | [], _ => true
  | _ :: _, [] => false
  | x :: xs, y :: ys => x == y && isPref xs ys

/-- The chars before the first `'='`. -/
def keyPart : List Char → List Char
  | [] => []
  | c :: rest => if c = '=' then [] else c :: keyPart rest

/-- Continuation charset of a letter key in the lexer. -/
def keyCharAl (c : Char) : Bool := isalpha c || c == '_'

/-- Letter-form key: starts with a letter, continues with letters or `'_'`. -/
def alphaKeyB : List Char → Bool
  | [] => false
  | c :: rest => isalpha c && allChars keyCharAl rest

/-- Digit-form key: a nonempty run of digits. -/
def digitKeyB : List Char → Bool
  | [] => false
  | c :: rest => isdigit c && allChars isdigit rest

/-- A key token the lexer accepts in full. -/
def validKeyB (k : List Char) : Bool := alphaKeyB k || digitKeyB k

/-- Chars that may start a value token (line 243 of the source). -/
def valueStartB (c : Char) : Bool := isalpha c || isdigit c || c == '-' || c == '.'

/-- Chars that do not stop the value scan. -/
def valueOkChar (c : Char) : Bool := !(c == '\r' || c == '\n' || c == nulc || c == '#')

/-- Last element with default. -/
def lastD : List Char → Char → Char
  | [], d => d
  | [c], _ => c
  | _ :: b :: t, d => lastD (b :: t) d

/-- A value token the lexer reproduces verbatim: valid start, no stop chars,
no trailing space (the parser trims those). -/
def validValueB : List Char → Bool
  | [] => false
  | c :: rest =>
    valueStartB c && allChars valueOkChar (c :: rest) && !(lastD (c :: rest) nulc == ' ')

/-- A (key, value) pair that fits one line slot with its `'='` and NUL. -/
def wfEntry (k v : List Char) : Bool :=
  validKeyB k && validValueB v && decide (k.length + v.length + 2 ≤ TC_LINE_MAX_SIZE)

/-- A line slot in canonical parsed shape: 64 chars holding
`key '=' value NUL ...` with the offset header pointing just past the `'='`. -/
def lineWFB (l : tc_line) : Bool :=
  let s := cString l.chars
  let k := keyPart s
  let v := s.drop (k.length + 1)
  (l.chars.length == 64) && (l.offset == k.length + 1) && wfEntry k v
    && (s == k ++ '=' :: v)

/-- The first `n` line slots are all in canonical shape (and exist). -/
def linesWFB : List tc_line → Nat → Bool
  | _, 0 => true
  | [], _+1 => false
  | l :: rest, n+1 => lineWFB l && linesWFB rest n

/-- A store whose visible entries are all in canonical parsed shape, backed by
the full 20-slot arena. -/
def storeWFB (cfg : tc_config) : Bool :=
  decide (cfg.size ≤ TC_CONFIG_MAX_SIZE) && (cfg.lines.length == 20)
    && linesWFB cfg.lines cfg.size

/-- The spec's per-entry invariant, decidably: the offset header equals
len(key) + 1 (the byte just past the `'='`), the line prints as one
`key=value` string, and a NUL terminator sits inside the 64-char region. -/
def entryInvB (l : tc_line) : Bool :=
  let s := cString l.chars
  let k := keyPart s
  (l.chars.length == 64) && (l.offset == k.length + 1) && (!k.isEmpty)
    && (s == k ++ '=' :: s.drop (k.length + 1)) && decide (s.length < l.chars.length)

/-- The spec's per-entry invariant as a predicate on whole stores. -/
def storeInvB : List tc_line → Nat → Bool
  | _, 0 => true
  | [], _+1 => false
  | l :: rest, n+1 => entryInvB l && storeInvB rest n

/-- The bytes `save` would write for the ordered entry list: one
`key=value\n` line per entry. -/
def serialize_entries : List (List Char × List Char) → List Char
  | [] => []
  | (k, v) :: rest => k ++ '=' :: v ++ '\n' :: serialize_entries rest

/-- Character distinct from NUL, as a Bool predicate. -/
def notNul (c : Char) : Bool := !(c == nulc)

/-- Specification-side lookup: value of the first entry whose stored key is a
leading segment of the query (what `tc_get_value` actually implements). -/
def firstPrefixValue (key : List Char) : List tc_line → Nat → Option (List Char)
  | _, 0 => none
  | [], _+1 => none
  | l :: rest, n+1 =>
    if isPref (storedKey l) key then some (storedValue l)
    else firstPrefixValue key rest n

/-- Arena shape: a full 20-slot line table of 64-char lines (what
`tc_load_config` hands to the parser). -/
def arenaShapeB (cfg : tc_config) : Bool :=
  (cfg.lines.length == 20) && cfg.lines.all (fun l => l.chars.length == 64)

/-- Every entry of the list is well formed. -/
def wfEntriesB : List (List Char × List Char) → Bool
  | [] => true
  | e :: r => wfEntry e.1 e.2 && wfEntriesB r

/-- A line slot stores exactly the given entry in canonical form. -/
def lineMatchesP (l : tc_line) (e : List Char × List Char) : Prop :=
  l.offset = e.1.length + 1 ∧ l.chars.length = 64 ∧ cString l.chars = e.1 ++ '=' :: e.2

/-!
Concrete claim theorems.  The general theorems (C2, C3, C7, C8, C10) and
their supporting lemmas follow further below.
-/

/-- Claim C1, counterexample: on the literal input
`"ip=172.16.0.1\nport=8080\n# note\nname=\"hello world\"\n"` the claim says
`load` succeeds with size 3; in fact the lexer has no quote handling at all —
`'"'` is not a permitted value start (line 243 of the source), so `load`
fails (with the invalid-value error after 2 completed entries). -/
theorem c1_counterexample :
    load_succeeded (tc_load_config initConfig
      (str ("ip=172.16.0.1\nport=8080\n# note\nname=\"hello world\"\n"))) = false
    ∧ err_line (tc_load_config initConfig
      (str ("ip=172.16.0.1\nport=8080\n# note\nname=\"hello world\"\n"))) = some 2 := by
  constructor
  · decide
  · decide

/-- Claim C1, amended: a value token must start with a letter, digit, `'-'`
or `'.'`; a quoted span is rejected as an invalid value start, so `load` of
the literal quoted input fails.  Values do not stop at spaces even without
quotes: for the same input with the quotes removed, `load` succeeds with
size 3 and `get("name")` returns `"hello world"` with the interior space
preserved (and `get("ip")`, `get("port")` behave as the spec's example
says). -/
theorem c1_theorem :
    load_succeeded (tc_load_config initConfig
      (str ("ip=172.16.0.1\nport=8080\n# note\nname=\"hello world\"\n"))) = false
    ∧ load_succeeded (tc_load_config initConfig
      (str ("ip=172.16.0.1\nport=8080\n# note\nname=hello world\n"))) = true
    ∧ load_size (tc_load_config initConfig
      (str ("ip=172.16.0.1\nport=8080\n# note\nname=hello world\n"))) = 3
    ∧ tc_get_value (load_config (tc_load_config initConfig
      (str ("ip=172.16.0.1\nport=8080\n# note\nname=hello world\n")))) (str ("name"))
      = some (str ("hello world"))
    ∧ tc_get_value (load_config (tc_load_config initConfig
      (str ("ip=172.16.0.1\nport=8080\n# note\nname=hello world\n")))) (str ("ip"))
      = some (str ("172.16.0.1"))
    ∧ tc_get_value (load_config (tc_load_config initConfig
      (str ("ip=172.16.0.1\nport=8080\n# note\nname=hello world\n")))) (str ("port"))
      = some (str ("8080")) := by
  refine ⟨by decide, by decide, by decide, by decide, by decide, by decide⟩

/-- Claim C4: the claim (and the spec) say parsing never reads or writes out
of bounds on any input.  The comment-skip loop (line 229) and the
invalid-key skip loop (line 300) run `pos++` until they see `'\n'`; the
guard `(c = file_buffer[pos+1]) != '\n' || c == '\0'` never stops at the
terminator (the second disjunct is dead code — evidence the author intended
to stop there), so a file whose last line is a comment, or an invalid key,
without a trailing newline drives `pos+1` past the `malloc(file_size + 1)`
allocation: an out-of-bounds read.  The model flags exactly that. -/
theorem c4_theorem :
    tc_parse_config initConfig (str ("#")) = ParseOut.oobRead
    ∧ tc_parse_config initConfig (str ("x=y\n# trailing comment")) = ParseOut.oobRead
    ∧ tc_parse_config initConfig (str ("&no-newline")) = ParseOut.oobRead := by
  refine ⟨by decide, by decide, by decide⟩

/-- Claim C5, counterexample: the claim says a failed `load` leaves no
partially-usable store.  On `"a=1\nb=&\n"` the parse fails (at the `'&'`),
but `config->size` was already advanced for the first entry, so the failed
store answers `get("a") = "1"`. -/
theorem c5_counterexample :
    load_succeeded (tc_load_config initConfig (str ("a=1\nb=&\n"))) = false
    ∧ tc_get_value (load_config (tc_load_config initConfig (str ("a=1\nb=&\n"))))
      (str ("a")) = some (str ("1")) := by
  exact ⟨by decide, by decide⟩

/-- Claim C5, amended: `load` is not atomic.  A failed parse returns failure
but leaves the entries completed before the error in the store: for
`"a=1\nb=&\n"` the load fails (invalid value, after 1 completed entry), the
store size is 1, and `get("a")` still returns `"1"`. -/
theorem c5_theorem :
    load_succeeded (tc_load_config initConfig (str ("a=1\nb=&\n"))) = false
    ∧ err_line (tc_load_config initConfig (str ("a=1\nb=&\n"))) = some 1
    ∧ load_size (tc_load_config initConfig (str ("a=1\nb=&\n"))) = 1
    ∧ tc_get_value (load_config (tc_load_config initConfig (str ("a=1\nb=&\n"))))
      (str ("a")) = some (str ("1")) := by
  refine ⟨by decide, by decide, by decide, by decide⟩

/-- Claim C6, counterexample: the claim says a line with a key but no
`=`/value before end of input makes `load` fail with a ParseError.  In fact
`load` of `"key"` (and of `"key\n"`) succeeds: the key is lexed and copied
into the arena but `config->size` is never advanced, so the key is silently
dropped. -/
theorem c6_counterexample :
    load_succeeded (tc_load_config initConfig (str ("key"))) = true
    ∧ load_succeeded (tc_load_config initConfig (str ("key\n"))) = true := by
  exact ⟨by decide, by decide⟩

/-- Claim C6, amended: a trailing key with no `=` and no value is silently
dropped, not rejected: `load` succeeds, the store is empty and `get` on that
key reports absence. -/
theorem c6_theorem :
    load_succeeded (tc_load_config initConfig (str ("key"))) = true
    ∧ load_size (tc_load_config initConfig (str ("key"))) = 0
    ∧ tc_get_value (load_config (tc_load_config initConfig (str ("key"))))
      (str ("key")) = none
    ∧ load_succeeded (tc_load_config initConfig (str ("key\n"))) = true
    ∧ load_size (tc_load_config initConfig (str ("key\n"))) = 0 := by
  refine ⟨by decide, by decide, by decide, by decide, by decide⟩

/-- Claim C9, counterexample: the claim says a parse failure carries the
1-based file line number, so `"bad=&oops\n"` should fail with line 1.  The
`current_line` counter of the source counts completed entries, not file
lines, and starts at 0: the reported number is 0, not 1. -/
theorem c9_counterexample :
    err_line (tc_load_config initConfig (str ("bad=&oops\n"))) = some 0
    ∧ decide (err_line (tc_load_config initConfig (str ("bad=&oops\n"))) = some 1)
      = false := by
  exact ⟨by decide, by decide⟩

/-- Claim C9, amended: a parse failure reports the value of `current_line`,
which is the 0-based count of entries completed before the error — not a
file line number.  For `"bad=&oops\n"` that count is 0; for
`"# c\nok=1\nbad=&oops\n"` (error on file line 3) it is 1, because blank,
comment and error lines are never counted. -/
theorem c9_theorem :
    err_line (tc_load_config initConfig (str ("bad=&oops\n"))) = some 0
    ∧ err_line (tc_load_config initConfig (str ("# c\nok=1\nbad=&oops\n"))) = some 1 := by
  exact ⟨by decide, by decide⟩

/-- Claim C2, counterexample: the claim says `set` on an absent key creates
it.  On the store loaded from `"ip=1\n"`, `tc_set_value` with the new key
`"nk"` returns `NULL` (the loop only updates existing entries; the store is
untouched and the entry count cannot change). -/
theorem c2_counterexample :
    tc_set_value (load_config (tc_load_config initConfig (str ("ip=1\n"))))
      (str ("nk")) (str ("5")) = none
    ∧ load_size (tc_load_config initConfig (str ("ip=1\n"))) = 1 := by
  exact ⟨by decide, by decide⟩

/-- Claim C3, counterexample: the claim says `get` returns not-found whenever
no entry's key is structurally equal to the query.  `key_compare` only
checks the first `offset - 1` bytes of the query, i.e. whether the stored
key is a leading segment of the query: on the store from `"ip=1\n"`, no
entry has key `"ipx"`, yet `get("ipx")` returns `"1"` (matching stored key
`"ip"`). -/
theorem c3_counterexample :
    tc_get_value (load_config (tc_load_config initConfig (str ("ip=1\n"))))
      (str ("ipx")) = some (str ("1"))
    ∧ entriesOf (load_config (tc_load_config initConfig (str ("ip=1\n"))))
      = [(str ("ip"), str ("1"))]
    ∧ decide (storedKey (load_line (tc_load_config initConfig (str ("ip=1\n"))) 0)
      = str ("ipx")) = false := by
  refine ⟨by decide, by decide, by decide⟩

/-- Claim C7, counterexample: the claim says any non-letter character at a
fresh key position makes `load` fail with an invalid-key ParseError.  A
digit does not: `"1=2\n"` loads fine (the lexer has a separate numeric-key
branch), and a digit even stops a letter key, so `"a1=b\n"` yields the
single entry `1=b`, not a key `a1`. -/
theorem c7_counterexample :
    load_succeeded (tc_load_config initConfig (str ("1=2\n"))) = true
    ∧ load_size (tc_load_config initConfig (str ("1=2\n"))) = 1
    ∧ tc_get_value (load_config (tc_load_config initConfig (str ("1=2\n"))))
      (str ("1")) = some (str ("2"))
    ∧ entriesOf (load_config (tc_load_config initConfig (str ("a1=b\n"))))
      = [(str ("1"), str ("b"))] := by
  refine ⟨by decide, by decide, by decide, by decide⟩

/-- Claim C8, counterexample: the claim quantifies over every store.  The
parser accepts a value line with no key (`"=v\n"`: `'='` switches to value
mode without any key having been written), leaving a store of size 1 whose
line slot has no key and no `'='`; `save` writes that slot as an empty line,
and re-loading the saved bytes yields a store of size 0 — the round trip
loses the pair. -/
theorem c8_counterexample :
    load_succeeded (tc_load_config initConfig (str ("=v\n"))) = true
    ∧ load_size (tc_load_config initConfig (str ("=v\n"))) = 1
    ∧ tc_save_to_file (load_config (tc_load_config initConfig (str ("=v\n"))))
      = str ("\n")
    ∧ load_size (tc_load_config initConfig (tc_save_to_file (load_config
      (tc_load_config initConfig (str ("=v\n")))))) = 0 := by
  refine ⟨by decide, by decide, by decide, by decide⟩

/-- Claim C10, counterexample: the claim says every entry of every loaded
store satisfies the offset/terminator invariant.  Loading `"=v\n"` succeeds
and produces an entry whose header offset is 0 (no key was ever written, so
the slot's header was never set): the offset does not equal `len(key) + 1`
for any key, and the line does not print as a `key=value` line. -/
theorem c10_counterexample :
    load_succeeded (tc_load_config initConfig (str ("=v\n"))) = true
    ∧ load_size (tc_load_config initConfig (str ("=v\n"))) = 1
    ∧ (load_line (tc_load_config initConfig (str ("=v\n"))) 0).offset = 0
    ∧ entryInvB (load_line (tc_load_config initConfig (str ("=v\n"))) 0) = false
    ∧ cString (load_line (tc_load_config initConfig (str ("=v\n"))) 0).chars = [] := by
  refine ⟨by decide, by decide, by decide, by decide, by decide⟩

/-!
Basic lemmas about the list-indexing and string helpers.
-/

/-- Reading past the end of a list yields the default. -/
theorem getN_ge {α : Type} (d : α) : ∀ (l : List α) (i : Nat), l.length ≤ i → getN d l i = d
  | [], _, _ => rfl
  | _ :: t, i+1, h => getN_ge d t i (Nat.le_of_succ_le_succ h)

/-- An in-range read is a list member. -/
theorem getN_mem {α : Type} (d : α) : ∀ (l : List α) (i : Nat), i < l.length → getN d l i ∈ l
  | a :: _, 0, _ => List.mem_cons_self a _
  | _ :: t, i+1, h => List.mem_cons_of_mem _ (getN_mem d t i (Nat.lt_of_succ_lt_succ h))

/-- Writing preserves length. -/
theorem length_setN {α : Type} : ∀ (l : List α) (i : Nat) (a : α), (setN l i a).length = l.length
  | [], _, _ => rfl
  | _ :: _, 0, _ => rfl
  | _ :: t, i+1, a => congrArg Nat.succ (length_setN t i a)

/-- Reading back an in-range write. -/
theorem getN_setN_self {α : Type} (d : α) :
    ∀ (l : List α) (i : Nat) (a : α), i < l.length → getN d (setN l i a) i = a
  | _ :: _, 0, _, _ => rfl
  | _ :: t, i+1, a, h => getN_setN_self d t i a (Nat.lt_of_succ_lt_succ h)

/-- Reading elsewhere than the written index. -/
theorem getN_setN_ne {α : Type} (d : α) :
    ∀ (l : List α) (i j : Nat) (a : α), i ≠ j → getN d (setN l i a) j = getN d l j
  | [], _, _, _, _ => rfl
  | _ :: _, 0, 0, _, h => absurd rfl h
  | _ :: _, 0, _+1, _, _ => rfl
  | _ :: _, _+1, 0, _, _ => rfl
  | _ :: t, i+1, j+1, a, h =>
    getN_setN_ne d t i j a (fun he => h (congrArg Nat.succ he))

/-- Reading the right part of an append. -/
theorem getN_append_right {α : Type} (d : α) :
    ∀ (xs ys : List α) (j : Nat), getN d (xs ++ ys) (xs.length + j) = getN d ys j
  | [], ys, j => by simp
  | x :: xs, ys, j => by
    have : (x :: xs).length + j = (xs.length + j) + 1 := by
      simp [List.length_cons]; omega
    rw [this]
    exact getN_append_right d xs ys j

/-- Reading the left part of an append. -/
theorem getN_append_left {α : Type} (d : α) :
    ∀ (xs ys : List α) (j : Nat), j < xs.length → getN d (xs ++ ys) j = getN d xs j
  | _ :: _, _, 0, _ => rfl
  | _ :: xs, ys, j+1, h => getN_append_left d xs ys j (Nat.lt_of_succ_lt_succ h)

/-- Lists agreeing pointwise and in length are equal. -/
theorem list_eq_of_getN {α : Type} (d : α) :
    ∀ (a b : List α), a.length = b.length → (∀ j, j < a.length → getN d a j = getN d b j) →
    a = b
  | [], [], _, _ => rfl
  | x :: xs, y :: ys, hl, h => by
    have h0 : x = y := h 0 (Nat.succ_pos _)
    have ht : xs = ys := list_eq_of_getN d xs ys (Nat.succ_injective hl)
      (fun j hj => h (j+1) (Nat.succ_lt_succ hj))
    rw [h0, ht]

/-- Reading inside a `take`. -/
theorem getN_take {α : Type} (d : α) :
    ∀ (l : List α) (m j : Nat), j < m → getN d (l.take m) j = getN d l j
  | [], _, _, _ => by simp [List.take_nil]
  | _ :: _, m+1, 0, _ => rfl
  | _ :: t, m+1, j+1, h => by
    simpa [List.take] using getN_take d t m j (Nat.lt_of_succ_lt_succ h)

/-- Taking exactly the length of the left summand. -/
theorem take_append_len {α : Type} :
    ∀ (k r : List α), (k ++ r).take k.length = k
  | [], _ => rfl
  | _ :: k, r => by simp [List.take, take_append_len k r]

/-- Dropping past the left summand and one more element. -/
theorem drop_append_len1 {α : Type} :
    ∀ (k : List α) (c : α) (v : List α), (k ++ c :: v).drop (k.length + 1) = v
  | [], _, _ => rfl
  | _ :: k, c, v => by simp [List.drop, drop_append_len1 k c v]

/-- Length after `copy_fwd` is unchanged. -/
theorem copy_fwd_length (s : List Char) :
    ∀ (k si : Nat) (t : List Char) (ti : Nat), (copy_fwd s si t ti k).length = t.length
  | 0, _, _, _ => rfl
  | k+1, si, t, ti => by
    simpa [copy_fwd, length_setN] using copy_fwd_length s k (si+1) (setN t ti (getN nulc s si)) (ti+1)

/-- Reads below the copy window are untouched. -/
theorem copy_fwd_getN_lo (s : List Char) :
    ∀ (k si : Nat) (t : List Char) (ti j : Nat), j < ti →
    getN nulc (copy_fwd s si t ti k) j = getN nulc t j
  | 0, _, _, _, _, _ => rfl
  | k+1, si, t, ti, j, h => by
    rw [copy_fwd]
    rw [copy_fwd_getN_lo s k (si+1) _ (ti+1) j (Nat.lt_succ_of_lt h)]
    exact getN_setN_ne nulc t ti j _ (Nat.ne_of_gt h)

/-- Reads at or above the end of the copy window are untouched. -/
theorem copy_fwd_getN_hi (s : List Char) :
    ∀ (k si : Nat) (t : List Char) (ti j : Nat), ti + k ≤ j →
    getN nulc (copy_fwd s si t ti k) j = getN nulc t j
  | 0, _, _, _, _, _ => rfl
  | k+1, si, t, ti, j, h => by
    rw [copy_fwd]
    rw [copy_fwd_getN_hi s k (si+1) _ (ti+1) j (by omega)]
    exact getN_setN_ne nulc t ti j _ (by omega)

/-- Reads inside the copy window see the copied source bytes. -/
theorem copy_fwd_getN_in (s : List Char) :
    ∀ (k si : Nat) (t : List Char) (ti j : Nat), j < k → ti + j < t.length →
    getN nulc (copy_fwd s si t ti k) (ti + j) = getN nulc s (si + j)
  | k+1, si, t, ti, 0, _, hb => by
    rw [copy_fwd]
    rw [copy_fwd_getN_lo s k (si+1) _ (ti+1) (ti+0) (by omega)]
    simpa using getN_setN_self nulc t ti _ (by omega)
  | k+1, si, t, ti, j+1, h, hb => by
    rw [copy_fwd]
    have : ti + (j + 1) = (ti + 1) + j := by omega
    rw [this]
    rw [copy_fwd_getN_in s k (si+1) _ (ti+1) j (by omega)
      (by rw [length_setN]; omega)]
    congr 1
    omega

/-- Value of `cString` on a NUL-free list extended by a NUL terminator. -/
theorem cString_append_nul :
    ∀ (v t : List Char), (∀ c ∈ v, c ≠ nulc) → cString (v ++ nulc :: t) = v
  | [], t, _ => by simp [cString]
  | c :: v, t, h => by
    have hc : c ≠ nulc := h c (List.mem_cons_self _ _)
    simp only [List.cons_append, cString, if_neg hc]
    exact congrArg (List.cons c) (cString_append_nul v t (fun x hx => h x (List.mem_cons_of_mem _ hx)))

/-- Lemma: `cString` is a leading segment of its argument. -/
theorem cString_pre : ∀ (xs : List Char), ∃ t, cString xs ++ t = xs
  | [] => ⟨[], rfl⟩
  | c :: xs => by
    by_cases hc : c = nulc
    · exact ⟨c :: xs, by simp [cString, hc]⟩
    · obtain ⟨t, ht⟩ := cString_pre xs
      exact ⟨t, by simp [cString, hc, ht]⟩

/-- Lemma: `cString` never grows. -/
theorem cString_length_le : ∀ (xs : List Char), (cString xs).length ≤ xs.length
  | [] => Nat.le_refl _
  | c :: xs => by
    by_cases hc : c = nulc
    · simp [cString, hc]
    · simpa [cString, hc] using Nat.succ_le_succ (cString_length_le xs)

/-- A pointwise description pins down `cString`: if the buffer agrees with a
NUL-free list `s` on the first `s.length` positions and holds NUL right
after, printing it yields exactly `s`. -/
theorem cString_eq_of_getN :
    ∀ (s xs : List Char), s.length ≤ xs.length →
    (∀ j, j < s.length → getN nulc xs j = getN nulc s j) →
    (∀ c ∈ s, c ≠ nulc) →
    getN nulc xs s.length = nulc →
    cString xs = s
  | [], [], _, _, _, _ => rfl
  | [], x :: xs, _, _, _, hnul => by
    have : x = nulc := hnul
    simp [cString, this]
  | s0 :: s, x :: xs, hlen, hag, hnul, hterm => by
    have h0 : x = s0 := hag 0 (Nat.succ_pos _)
    have hs0 : s0 ≠ nulc := hnul s0 (List.mem_cons_self _ _)
    simp only [cString, h0, if_neg hs0]
    rw [cString_eq_of_getN s xs (Nat.le_of_succ_le_succ hlen)
      (fun j hj => hag (j+1) (Nat.succ_lt_succ hj))
      (fun c hc => hnul c (List.mem_cons_of_mem _ hc)) hterm]

/-- Lemma: `keyPart` stops at the first `'='`. -/
theorem keyPart_append :
    ∀ (k v : List Char), (∀ c ∈ k, c ≠ '=') → keyPart (k ++ '=' :: v) = k
  | [], v, _ => by simp [keyPart]
  | c :: k, v, h => by
    have hc : c ≠ '=' := h c (List.mem_cons_self _ _)
    simp only [List.cons_append, keyPart, if_neg hc]
    exact congrArg (List.cons c) (keyPart_append k v (fun x hx => h x (List.mem_cons_of_mem _ hx)))

/-- Lemma: `allChars` in terms of membership. -/
theorem allChars_iff (p : Char → Bool) :
    ∀ (l : List Char), allChars p l = true ↔ ∀ c ∈ l, p c = true
  | [] => by simp [allChars]
  | c :: l => by
    simp only [allChars, Bool.and_eq_true, allChars_iff p l, List.mem_cons]
    constructor
    · rintro ⟨hc, hl⟩ x (rfl | hx)
      · exact hc
      · exact hl x hx
    · intro h
      exact ⟨h c (Or.inl rfl), fun x hx => h x (Or.inr hx)⟩

/-- Lemma: `isPref` decides the leading-segment relation. -/
theorem isPref_iff : ∀ (a b : List Char), isPref a b = true ↔ ∃ t, a ++ t = b
  | [], b => by simp [isPref]
  | a0 :: a, [] => by simp [isPref]
  | a0 :: a, b0 :: b => by
    simp only [isPref, Bool.and_eq_true, beq_iff_eq, isPref_iff a b]
    constructor
    · rintro ⟨rfl, t, rfl⟩
      exact ⟨t, rfl⟩
    · rintro ⟨t, ht⟩
      have h0 : a0 = b0 := by
        have := congrArg (getN nulc · 0) ht
        simpa using this
      refine ⟨h0, t, ?_⟩
      have := congrArg (List.drop 1) ht
      simpa using this

/-- Lemma: `lastD` is the read at the last index. -/
theorem lastD_eq_getN :
    ∀ (v : List Char) (c d : Char), lastD (c :: v) d = getN d (c :: v) v.length
  | [], c, d => rfl
  | b :: v, c, d => by
    simpa [lastD] using lastD_eq_getN v b d

/-!
Character-class facts and scan-loop behaviour.
-/

/-- A letter or digit is none of the lexer's special dispatch characters. -/
theorem keyStart_dispatch (c : Char) (h : isalpha c = true ∨ isdigit c = true) :
    ¬(c = '\r' ∨ c = '\n' ∨ c = ' ' ∨ c = '\t') ∧ c ≠ '#' ∧ c ≠ '=' ∧ c ≠ nulc := by
  refine ⟨?_, ?_, ?_, ?_⟩
  · rintro (rfl | rfl | rfl | rfl) <;> rcases h with h | h <;> exact absurd h (by decide)
  · rintro rfl; rcases h with h | h <;> exact absurd h (by decide)
  · rintro rfl; rcases h with h | h <;> exact absurd h (by decide)
  · rintro rfl; rcases h with h | h <;> exact absurd h (by decide)

/-- A valid value-start character is none of the dispatch characters either. -/
theorem valueStart_dispatch (c : Char) (h : valueStartB c = true) :
    ¬(c = '\r' ∨ c = '\n' ∨ c = ' ' ∨ c = '\t') ∧ c ≠ '#' ∧ c ≠ '=' ∧ c ≠ nulc := by
  have h4 : isalpha c = true ∨ isdigit c = true ∨ c = '-' ∨ c = '.' := by
    simp only [valueStartB, Bool.or_eq_true, beq_iff_eq] at h
    tauto
  rcases h4 with h | h | rfl | rfl
  · exact keyStart_dispatch c (Or.inl h)
  · exact keyStart_dispatch c (Or.inr h)
  · exact ⟨by rintro (h | h | h | h) <;> exact absurd h (by decide), by decide, by decide, by decide⟩
  · exact ⟨by rintro (h | h | h | h) <;> exact absurd h (by decide), by decide, by decide, by decide⟩

/-- Letter-key continuation characters are not NUL. -/
theorem keyCharAl_ne_nul (c : Char) (h : keyCharAl c = true) : c ≠ nulc := by
  rintro rfl; exact absurd h (by decide)

/-- Letter-key continuation characters are not `'='`. -/
theorem keyCharAl_ne_eq (c : Char) (h : keyCharAl c = true) : c ≠ '=' := by
  rintro rfl; exact absurd h (by decide)

/-- Digits are not NUL. -/
theorem isdigit_ne_nul (c : Char) (h : isdigit c = true) : c ≠ nulc := by
  rintro rfl; exact absurd h (by decide)

/-- Digits are not `'='`. -/
theorem isdigit_ne_eq (c : Char) (h : isdigit c = true) : c ≠ '=' := by
  rintro rfl; exact absurd h (by decide)

/-- Value characters (non-stop chars) are in particular not NUL. -/
theorem valueOkChar_ne (c : Char) (h : valueOkChar c = true) :
    c ≠ '\r' ∧ c ≠ '\n' ∧ c ≠ nulc ∧ c ≠ '#' := by
  simp only [valueOkChar, Bool.not_eq_true', Bool.or_eq_false_iff, beq_eq_false_iff_ne] at h
  exact ⟨h.1.1.1, h.1.1.2, h.1.2, h.2⟩

/-- Reading at or before the terminator position always yields a byte. -/
theorem readAt_le (buf : List Char) (i : Nat) (h : i ≤ buf.length) :
    readAt buf i = some (bufAt buf i) := by
  unfold readAt bufAt
  rcases Nat.lt_or_ge i buf.length with hlt | hge
  · rw [if_pos hlt]
  · have : i = buf.length := Nat.le_antisymm h hge
    rw [if_neg (by omega), if_pos this, this, getN_ge nulc buf _ (Nat.le_refl _)]

/-- Letter-key scan: given `m` continuation characters and then a
non-continuation character in bounds, the loop lands on the last key char. -/
theorem alphaKeyLoop_run (buf : List Char) :
    ∀ (m pos fuel : Nat),
    (∀ j, j < m → (isalpha (bufAt buf (pos+1+j)) || bufAt buf (pos+1+j) = '_') = true) →
    (isalpha (bufAt buf (pos+1+m)) || bufAt buf (pos+1+m) = '_') = false →
    pos+1+m ≤ buf.length → m < fuel →
    alphaKeyLoop buf fuel pos = .found (pos + m)
  | 0, pos, fuel+1, _, hstop, hb, _ => by
    rw [alphaKeyLoop, readAt_le buf (pos+1) (by omega)]
    simp only []
    rw [if_neg]
    · rfl
    · simpa using hstop
  | m+1, pos, fuel+1, hm, hstop, hb, hf => by
    rw [alphaKeyLoop, readAt_le buf (pos+1) (by omega)]
    simp only []
    rw [if_pos (by simpa using hm 0 (by omega))]
    have ih := alphaKeyLoop_run buf m (pos+1) fuel
      (fun j hj => by
        have := hm (j+1) (by omega)
        simpa [show pos+1+(j+1) = pos+1+1+j by omega] using this)
      (by simpa [show pos+1+(m+1) = pos+1+1+m by omega] using hstop)
      (by omega) (by omega)
    rw [ih]
    congr 1
    omega

/-- Digit-key scan analogue. -/
theorem digitKeyLoop_run (buf : List Char) :
    ∀ (m pos fuel : Nat),
    (∀ j, j < m → isdigit (bufAt buf (pos+1+j)) = true) →
    isdigit (bufAt buf (pos+1+m)) = false →
    pos+1+m ≤ buf.length → m < fuel →
    digitKeyLoop buf fuel pos = .found (pos + m)
  | 0, pos, fuel+1, _, hstop, hb, _ => by
    rw [digitKeyLoop, readAt_le buf (pos+1) (by omega)]
    simp only []
    rw [if_neg (by simpa using hstop)]
    rfl
  | m+1, pos, fuel+1, hm, hstop, hb, hf => by
    rw [digitKeyLoop, readAt_le buf (pos+1) (by omega)]
    simp only []
    rw [if_pos (by simpa using hm 0 (by omega))]
    have ih := digitKeyLoop_run buf m (pos+1) fuel
      (fun j hj => by
        have := hm (j+1) (by omega)
        simpa [show pos+1+(j+1) = pos+1+1+j by omega] using this)
      (by simpa [show pos+1+(m+1) = pos+1+1+m by omega] using hstop)
      (by omega) (by omega)
    rw [ih]
    congr 1
    omega

/-- Value scan: given `m` non-stop characters and then a stop character in
bounds, the loop lands on the last value char. -/
theorem valueLoop_run (buf : List Char) :
    ∀ (m pos fuel : Nat),
    (∀ j, j < m → valueOkChar (bufAt buf (pos+1+j)) = true) →
    (bufAt buf (pos+1+m) = '\r' ∨ bufAt buf (pos+1+m) = '\n'
      ∨ bufAt buf (pos+1+m) = nulc ∨ bufAt buf (pos+1+m) = '#') →
    pos+1+m ≤ buf.length → m < fuel →
    valueLoop buf fuel pos = .found (pos + m)
  | 0, pos, fuel+1, _, hstop, hb, _ => by
    rw [valueLoop, readAt_le buf (pos+1) (by omega)]
    simp only []
    rw [if_pos (by simpa using hstop)]
    rfl
  | m+1, pos, fuel+1, hm, hstop, hb, hf => by
    rw [valueLoop, readAt_le buf (pos+1) (by omega)]
    simp only []
    rw [if_neg]
    · have ih := valueLoop_run buf m (pos+1) fuel
        (fun j hj => by
          have := hm (j+1) (by omega)
          simpa [show pos+1+(j+1) = pos+1+1+j by omega] using this)
        (by
          rcases hstop with h | h | h | h <;>
            rw [show pos+1+1+m = pos+1+(m+1) by omega] <;> tauto)
        (by omega) (by omega)
      rw [ih]
      congr 1
      omega
    · have h0 := hm 0 (by omega)
      have := valueOkChar_ne _ (by simpa using h0)
      tauto

/-- Invalid-key recovery: if a newline occurs after `pos` within the buffer,
the skip loop terminates normally. -/
theorem skipLine_found (buf : List Char) :
    ∀ (fuel pos j : Nat), pos < j → j ≤ buf.length → bufAt buf j = '\n' →
    j - pos ≤ fuel → ∃ p, skipLine buf fuel pos = .found p
  | fuel+1, pos, j, hpj, hjb, hnl, hf => by
    rw [skipLine, readAt_le buf (pos+1) (by omega)]
    simp only []
    by_cases h : bufAt buf (pos+1) = '\n'
    · rw [if_neg (by simpa using h)]
      exact ⟨pos, rfl⟩
    · rw [if_pos (by simpa using h)]
      have hne : pos + 1 ≠ j := by rintro rfl; exact h hnl
      exact skipLine_found buf fuel (pos+1) j (by omega) hjb hnl (by omega)
  | 0, pos, j, hpj, _, _, hf => by omega

/-!
`key_compare` and its leading-segment characterisation.
-/

/-- Unrolling of the `key_compare` loop. -/
theorem kc_loop_iff (key comp : List Char) :
    ∀ (k i : Nat), kc_loop key comp i k = true ↔
      ∀ j, j < k → getN nulc key (i+j) = getN nulc comp (i+j)
  | 0, i => by simp [kc_loop]
  | k+1, i => by
    rw [kc_loop]
    by_cases h : getN nulc key i ≠ getN nulc comp i
    · rw [if_pos h]
      constructor
      · intro hfalse; exact absurd hfalse (by simp)
      · intro hall
        exact absurd (by simpa using hall 0 (by omega)) h
    · rw [if_neg h]
      push_neg at h
      rw [kc_loop_iff key comp k (i+1)]
      constructor
      · intro hall j hj
        rcases Nat.eq_zero_or_pos j with rfl | hpos
        · simpa using h
        · have := hall (j-1) (by omega)
          simpa [show i+1+(j-1) = i+j by omega] using this
      · intro hall j hj
        have := hall (j+1) (by omega)
        simpa [show i+(j+1) = i+1+j by omega] using this

/-- Lemma: `key_compare key m comp` compares the first `m` bytes. -/
theorem key_compare_iff (key comp : List Char) (m : Nat) :
    key_compare key m comp = true ↔
      ∀ j, j < m → getN nulc key j = getN nulc comp j := by
  unfold key_compare
  rw [kc_loop_iff key comp m 0]
  constructor
  · intro h j hj; simpa using h j hj
  · intro h j hj; simpa using h j hj

/-- On a NUL-free stored key of length `m`, `key_compare` holds exactly when
that stored key is a leading segment of the queried key: the comparison
never checks that the query stops there. -/
theorem key_compare_pref (key comp : List Char) (m : Nat)
    (hm : m ≤ comp.length) (hnul : ∀ j, j < m → getN nulc comp j ≠ nulc) :
    key_compare key m comp = true ↔ ∃ t, comp.take m ++ t = key := by
  rw [key_compare_iff]
  constructor
  · intro h
    have hlen : m ≤ key.length := by
      by_contra hlt
      push_neg at hlt
      have h1 := h key.length (by omega)
      rw [getN_ge nulc key _ (Nat.le_refl _)] at h1
      exact hnul key.length (by omega) h1.symm
    refine ⟨key.drop m, ?_⟩
    have htake : comp.take m = key.take m := by
      apply list_eq_of_getN nulc
      · rw [List.length_take, List.length_take]
        omega
      · intro j hj
        rw [List.length_take] at hj
        have hjm : j < m := by omega
        rw [getN_take nulc comp m j hjm, getN_take nulc key m j hjm]
        exact (h j hjm).symm
    rw [htake, List.take_append_drop]
  · rintro ⟨t, rfl⟩
    intro j hj
    have hlen : (comp.take m).length = m := by
      rw [List.length_take]; omega
    rw [getN_append_left nulc _ _ j (by omega), getN_take nulc comp m j hj]

/-!
Elimination lemmas for the well-formedness predicates.
-/

/-- A valid key token is nonempty and free of NUL and `'='`. -/
theorem validKeyB_facts (k : List Char) (h : validKeyB k = true) :
    k ≠ [] ∧ (∀ c ∈ k, c ≠ nulc) ∧ (∀ c ∈ k, c ≠ '=') := by
  cases k with
  | nil => simp [validKeyB, alphaKeyB, digitKeyB] at h
  | cons c k' =>
    simp only [validKeyB, alphaKeyB, digitKeyB, Bool.or_eq_true, Bool.and_eq_true] at h
    rcases h with ⟨hc, hall⟩ | ⟨hc, hall⟩
    · rw [allChars_iff] at hall
      refine ⟨by simp, ?_, ?_⟩
      · intro x hx
        rcases List.mem_cons.mp hx with rfl | hx'
        · exact (keyStart_dispatch x (Or.inl hc)).2.2.2
        · exact keyCharAl_ne_nul x (hall x hx')
      · intro x hx
        rcases List.mem_cons.mp hx with rfl | hx'
        · exact (keyStart_dispatch x (Or.inl hc)).2.2.1
        · exact keyCharAl_ne_eq x (hall x hx')
    · rw [allChars_iff] at hall
      refine ⟨by simp, ?_, ?_⟩
      · intro x hx
        rcases List.mem_cons.mp hx with rfl | hx'
        · exact isdigit_ne_nul x hc
        · exact isdigit_ne_nul x (hall x hx')
      · intro x hx
        rcases List.mem_cons.mp hx with rfl | hx'
        · exact isdigit_ne_eq x hc
        · exact isdigit_ne_eq x (hall x hx')

/-- A valid value token is nonempty, has only non-stop chars, a valid start
char, and no trailing space. -/
theorem validValueB_facts (v : List Char) (h : validValueB v = true) :
    v ≠ [] ∧ (∀ c ∈ v, valueOkChar c = true) ∧ valueStartB (getN nulc v 0) = true
      ∧ lastD v nulc ≠ ' ' := by
  cases v with
  | nil => simp [validValueB] at h
  | cons c v' =>
    simp only [validValueB, Bool.and_eq_true, Bool.not_eq_true', beq_eq_false_iff_ne] at h
    obtain ⟨⟨hstart, hall⟩, hlast⟩ := h
    rw [allChars_iff] at hall
    exact ⟨by simp, hall, hstart, hlast⟩

/-- Unpacking `wfEntry`. -/
theorem wfEntry_facts (k v : List Char) (h : wfEntry k v = true) :
    validKeyB k = true ∧ validValueB v = true ∧ k.length + v.length + 2 ≤ 64 := by
  simp only [wfEntry, Bool.and_eq_true, decide_eq_true_eq, TC_LINE_MAX_SIZE] at h
  exact ⟨h.1.1, h.1.2, h.2⟩

/-- Lemma: `cString` output contains no NUL. -/
theorem cString_nul_free : ∀ (xs : List Char), ∀ c ∈ cString xs, c ≠ nulc
  | [] => by simp [cString]
  | c :: xs => by
    by_cases hc : c = nulc
    · simp [cString, hc]
    · simp only [cString, if_neg hc]
      intro x hx
      rcases List.mem_cons.mp hx with rfl | hx'
      · exact hc
      · exact cString_nul_free xs x hx'

/-- A char list splits as its printable part followed by a NUL and the rest
(or has no NUL at all). -/
theorem cString_split : ∀ (xs : List Char), cString xs = xs ∨ ∃ t, xs = cString xs ++ nulc :: t
  | [] => Or.inl rfl
  | c :: xs => by
    by_cases hc : c = nulc
    · exact Or.inr ⟨xs, by simp [cString, hc]⟩
    · rcases cString_split xs with h | ⟨t, ht⟩
      · exact Or.inl (by simp [cString, hc, h])
      · refine Or.inr ⟨t, ?_⟩
        simp only [cString, if_neg hc, List.cons_append]
        exact congrArg (List.cons c) ht

/-- Full consequences of a canonical line slot: the stored key and value it
exposes, and NUL-freeness of the key region. -/
theorem lineWF_full (l : tc_line) (h : lineWFB l = true) :
    ∃ k v, wfEntry k v = true ∧ l.offset = k.length + 1 ∧ l.chars.length = 64 ∧
      cString l.chars = k ++ '=' :: v ∧ storedKey l = k ∧ storedValue l = v ∧
      (∀ j, j < k.length → getN nulc l.chars j ≠ nulc) := by
  simp only [lineWFB, Bool.and_eq_true, beq_iff_eq] at h
  obtain ⟨⟨⟨hlen, hoff⟩, hwf⟩, hcs⟩ := h
  refine ⟨keyPart (cString l.chars), (cString l.chars).drop ((keyPart (cString l.chars)).length + 1),
    hwf, hoff, hlen, hcs, ?_⟩
  set k := keyPart (cString l.chars) with hk
  set v := (cString l.chars).drop (k.length + 1) with hv
  obtain ⟨hkB, hvB, hbound⟩ := wfEntry_facts k v hwf
  obtain ⟨hkne, hknul, hkeq⟩ := validKeyB_facts k hkB
  obtain ⟨hvne, hvok, _, _⟩ := validValueB_facts v hvB
  have hvlen : 1 ≤ v.length := List.length_pos.mpr hvne
  have hslen : (cString l.chars).length = k.length + 1 + v.length := by
    rw [hcs]; simp; omega
  rcases cString_split l.chars with hsp | ⟨t, hsp⟩
  · rw [hsp] at hslen
    omega
  · have hchars : l.chars = k ++ '=' :: (v ++ nulc :: t) := by
      rw [hsp, hcs]
      simp
    have hsk : storedKey l = k := by
      unfold storedKey
      rw [hoff]
      simp only [sub_one_64, if_neg (by omega : ¬(k.length + 1 = 0))]
      rw [Nat.add_sub_cancel, hchars, take_append_len]
    have hsv : storedValue l = v := by
      unfold storedValue
      rw [hoff, hchars, drop_append_len1]
      exact cString_append_nul v t (fun c hc => (valueOkChar_ne c (hvok c hc)).2.2.1)
    refine ⟨hsk, hsv, ?_⟩
    intro j hj
    rw [hchars, getN_append_left nulc _ _ j hj]
    exact hknul _ (getN_mem nulc k j hj)

/-- Unpacking `storeWFB`. -/
theorem storeWFB_facts (cfg : tc_config) (h : storeWFB cfg = true) :
    cfg.size ≤ 20 ∧ cfg.lines.length = 20 ∧ linesWFB cfg.lines cfg.size = true := by
  simp only [storeWFB, Bool.and_eq_true, beq_iff_eq, decide_eq_true_eq,
    TC_CONFIG_MAX_SIZE] at h
  exact ⟨h.1.1, h.1.2, h.2⟩

/-- On a canonical line, the `key_compare` test of the lookup/update loops is
exactly the leading-segment test on the stored key. -/
theorem key_compare_iff_isPref (l : tc_line) (key : List Char) (h : lineWFB l = true) :
    (key_compare key (sub_one_64 l.offset) l.chars = true)
      ↔ (isPref (storedKey l) key = true) := by
  obtain ⟨k, v, hwf, hoff, hlen, _, hsk, _, hnul⟩ := lineWF_full l h
  obtain ⟨_, _, hbound⟩ := wfEntry_facts k v hwf
  have hm : sub_one_64 l.offset = k.length := by
    rw [hoff]
    simp only [sub_one_64, if_neg (by omega : ¬(k.length + 1 = 0))]
    omega
  have htake : l.chars.take k.length = k := by
    rw [← hm]
    exact hsk
  rw [hm, key_compare_pref key l.chars k.length (by omega) hnul, isPref_iff, hsk, htake]

/-- The lookup loop over canonical lines implements first-leading-segment
lookup. -/
theorem get_loop_pref (key : List Char) :
    ∀ (ls : List tc_line) (n : Nat), linesWFB ls n = true →
    get_loop key ls n = firstPrefixValue key ls n
  | ls, 0, _ => by cases ls <;> rfl
  | [], _+1, h => by simp [linesWFB] at h
  | l :: rest, n+1, h => by
    simp only [linesWFB, Bool.and_eq_true] at h
    obtain ⟨hl, hrest⟩ := h
    by_cases hcond : isPref (storedKey l) key = true
    · rw [get_loop, firstPrefixValue, if_pos ((key_compare_iff_isPref l key hl).mpr hcond),
        if_pos hcond]
      rfl
    · rw [get_loop, firstPrefixValue,
        if_neg (fun hh => hcond ((key_compare_iff_isPref l key hl).mp hh)),
        if_neg hcond]
      exact get_loop_pref key rest n hrest

/-- First-leading-segment lookup with the empty query finds nothing when all
stored keys are nonempty. -/
theorem firstPrefixValue_nil :
    ∀ (ls : List tc_line) (n : Nat), linesWFB ls n = true →
    firstPrefixValue [] ls n = none
  | ls, 0, _ => by cases ls <;> rfl
  | [], _+1, h => by simp [linesWFB] at h
  | l :: rest, n+1, h => by
    simp only [linesWFB, Bool.and_eq_true] at h
    obtain ⟨hl, hrest⟩ := h
    obtain ⟨k, v, hwf, _, _, _, hsk, _, _⟩ := lineWF_full l hl
    obtain ⟨hkne, _, _⟩ := validKeyB_facts k (wfEntry_facts k v hwf).1
    have : isPref (storedKey l) [] = false := by
      rw [hsk]
      cases k with
      | nil => exact absurd rfl hkne
      | cons _ _ => rfl
    rw [firstPrefixValue, if_neg (by simp [this])]
    exact firstPrefixValue_nil rest n hrest

/-- Claim C3, amended: on a well-formed store, `tc_get_value` returns the
value of the first entry in storage order whose key is a leading segment of
the query (so structurally equal keys are found, but a query strictly
extending a stored key is also "found"), and returns not-found when no
stored key is a leading segment — in particular for the empty query. -/
theorem c3_theorem (cfg : tc_config) (key : List Char) (hwf : storeWFB cfg = true) :
    tc_get_value cfg key = firstPrefixValue key cfg.lines cfg.size
    ∧ tc_get_value cfg [] = none := by
  obtain ⟨_, _, hlines⟩ := storeWFB_facts cfg hwf
  constructor
  · exact get_loop_pref key cfg.lines cfg.size hlines
  · rw [show tc_get_value cfg [] = get_loop [] cfg.lines cfg.size from rfl,
      get_loop_pref [] cfg.lines cfg.size hlines]
    exact firstPrefixValue_nil cfg.lines cfg.size hlines

/-- Claim C3, witness: the general theorem applied to the store loaded from
`"ip=1\n"` and the query `"ipx"`. -/
theorem c3_witness :
    storeWFB (load_config (tc_load_config initConfig (str ("ip=1\n")))) = true
    ∧ (tc_get_value (load_config (tc_load_config initConfig (str ("ip=1\n")))) (str ("ipx"))
        = firstPrefixValue (str ("ipx"))
          (load_config (tc_load_config initConfig (str ("ip=1\n")))).lines
          (load_config (tc_load_config initConfig (str ("ip=1\n")))).size
      ∧ tc_get_value (load_config (tc_load_config initConfig (str ("ip=1\n")))) [] = none) :=
  ⟨by decide, c3_theorem (load_config (tc_load_config initConfig (str ("ip=1\n"))))
    (str ("ipx")) (by decide)⟩

/-- The update loop finds nothing when no stored key is a leading segment of
the queried key. -/
theorem set_loop_none (key newv : List Char) :
    ∀ (ls : List tc_line) (n : Nat), linesWFB ls n = true →
    (∀ i, i < n → isPref (storedKey (getN default ls i)) key = false) →
    set_loop key newv ls n = none
  | ls, 0, _, _ => by cases ls <;> rfl
  | [], _+1, h, _ => by simp [linesWFB] at h
  | l :: rest, n+1, h, habs => by
    simp only [linesWFB, Bool.and_eq_true] at h
    obtain ⟨hl, hrest⟩ := h
    have h0 : isPref (storedKey l) key = false := habs 0 (by omega)
    rw [set_loop, if_neg (fun hh => by
      rw [(key_compare_iff_isPref l key hl).mp hh] at h0
      exact Bool.true_eq_false.mp h0)]
    rw [set_loop_none key newv rest n hrest
      (fun i hi => habs (i+1) (by omega))]

/-- Claim C2, amended: `tc_set_value` never creates a key.  On a well-formed
store, if no stored key is a leading segment of `k` (in particular if `k` is
absent), `set(k, v)` returns `NULL` and the store is unchanged — the entry
count cannot grow and nothing is appended. -/
theorem c2_theorem (cfg : tc_config) (key newv : List Char)
    (hwf : storeWFB cfg = true)
    (habs : ∀ i, i < cfg.size → isPref (storedKey (getN default cfg.lines i)) key = false) :
    tc_set_value cfg key newv = none := by
  obtain ⟨_, _, hlines⟩ := storeWFB_facts cfg hwf
  unfold tc_set_value
  by_cases hlen : key.length + newv.length + 2 > TC_LINE_MAX_SIZE
  · rw [if_pos hlen]
  · rw [if_neg hlen, set_loop_none key newv cfg.lines cfg.size hlines habs]

/-- Claim C2, witness: the general theorem applied to the store loaded from
`"ip=1\n"` and the fresh key `"zz"`. -/
theorem c2_witness :
    storeWFB (load_config (tc_load_config initConfig (str ("ip=1\n")))) = true
    ∧ (∀ i, i < (load_config (tc_load_config initConfig (str ("ip=1\n")))).size →
        isPref (storedKey (getN default
          (load_config (tc_load_config initConfig (str ("ip=1\n")))).lines i))
          (str ("zz")) = false)
    ∧ tc_set_value (load_config (tc_load_config initConfig (str ("ip=1\n"))))
        (str ("zz")) (str ("9")) = none :=
  ⟨by decide, by decide,
    c2_theorem (load_config (tc_load_config initConfig (str ("ip=1\n"))))
      (str ("zz")) (str ("9")) (by decide) (by decide)⟩

/-- Claim C7, amended: a key token starts with a letter (continuing over
letters and `'_'` — not digits) or with a digit (continuing over digits);
only a character that can start neither key form, and is not whitespace,
`'#'` or `'='`, at a fresh key position makes the parse fail with the
invalid-key error (shown here for the start of the buffer, with a newline
somewhere after it — without one the skip loop instead overruns the buffer,
see C4).  Digit-started keys load fine, and `'_'` continues a letter key. -/
theorem c7_theorem (buf : List Char) (cfg : tc_config)
    (hskip : ¬(bufAt buf 0 = '\r' ∨ bufAt buf 0 = '\n' ∨ bufAt buf 0 = ' '
      ∨ bufAt buf 0 = '\t'))
    (hhash : bufAt buf 0 ≠ '#') (heqs : bufAt buf 0 ≠ '=')
    (halpha : isalpha (bufAt buf 0) = false) (hdigit : isdigit (bufAt buf 0) = false)
    (hnl : ∃ j, 1 ≤ j ∧ j < buf.length ∧ bufAt buf j = '\n') :
    tc_parse_config cfg buf = .err (.invalidKey 0) cfg
    ∧ load_succeeded (tc_load_config initConfig (str ("1=2\n"))) = true
    ∧ entriesOf (load_config (tc_load_config initConfig (str ("1=2\n"))))
        = [(str ("1"), str ("2"))]
    ∧ entriesOf (load_config (tc_load_config initConfig (str ("a_b=c\n"))))
        = [(str ("a_b"), str ("c"))] := by
  refine ⟨?_, by decide, by decide, by decide⟩
  obtain ⟨j, hj1, hjlen, hjnl⟩ := hnl
  unfold bufAt at hskip hhash heqs halpha hdigit hjnl
  obtain ⟨p, hp⟩ := skipLine_found buf (buf.length + 2) 0 j (by omega) (by omega)
    hjnl (by omega)
  unfold tc_parse_config
  rw [show buf.length + 2 = (buf.length + 1) + 1 from rfl]
  rw [parseGo]
  rw [if_pos (by omega : 0 < buf.length)]
  simp only []
  rw [if_neg hskip, if_neg hhash, if_neg heqs, if_neg (by simp : ¬(false = true)),
    if_neg (by simp [halpha]), if_neg (by simp [hdigit]), hp]

/-- Claim C7, witness: the general theorem applied to the buffer `"&\n"`
(invalid key start `'&'`, newline at index 1) on the fresh arena. -/
theorem c7_witness :
    isalpha (bufAt (str ("&\n")) 0) = false
    ∧ isdigit (bufAt (str ("&\n")) 0) = false
    ∧ bufAt (str ("&\n")) 1 = '\n'
    ∧ tc_parse_config initConfig (str ("&\n")) = .err (.invalidKey 0) initConfig :=
  ⟨by decide, by decide, by decide,
    (c7_theorem (str ("&\n")) initConfig (by decide) (by decide) (by decide)
      (by decide) (by decide) ⟨1, by decide, by decide, by decide⟩).1⟩

/-!
Lemmas about serialized entry lists, and the per-entry scan behaviour on
them.
-/

/-- Unfolding one serialized entry. -/
theorem ser_cons (k v : List Char) (r : List (List Char × List Char)) :
    serialize_entries ((k, v) :: r) = k ++ '=' :: v ++ '\n' :: serialize_entries r := rfl

/-- Length of one serialized entry plus the rest. -/
theorem ser_len (k v : List Char) (r : List (List Char × List Char)) :
    (serialize_entries ((k, v) :: r)).length
      = k.length + 1 + v.length + 1 + (serialize_entries r).length := by
  rw [ser_cons]
  simp only [List.length_append, List.length_cons]
  omega

/-- Key bytes of a serialized entry. -/
theorem getN_ser_key (k v : List Char) (r : List (List Char × List Char)) (j : Nat)
    (hj : j < k.length) :
    getN nulc (serialize_entries ((k, v) :: r)) j = getN nulc k j := by
  rw [ser_cons]
  rw [getN_append_left nulc (k ++ '=' :: v) ('\n' :: serialize_entries r) j
    (by simp only [List.length_append, List.length_cons]; omega)]
  exact getN_append_left nulc k ('=' :: v) j hj

/-- The `'='` byte of a serialized entry. -/
theorem getN_ser_eq (k v : List Char) (r : List (List Char × List Char)) :
    getN nulc (serialize_entries ((k, v) :: r)) k.length = '=' := by
  rw [ser_cons]
  rw [getN_append_left nulc (k ++ '=' :: v) ('\n' :: serialize_entries r) k.length
    (by simp only [List.length_append, List.length_cons]; omega)]
  have := getN_append_right nulc k ('=' :: v) 0
  simpa using this

/-- Value bytes of a serialized entry. -/
theorem getN_ser_val (k v : List Char) (r : List (List Char × List Char)) (j : Nat)
    (hj : j < v.length) :
    getN nulc (serialize_entries ((k, v) :: r)) (k.length + 1 + j) = getN nulc v j := by
  rw [ser_cons]
  rw [getN_append_left nulc (k ++ '=' :: v) ('\n' :: serialize_entries r) (k.length + 1 + j)
    (by simp only [List.length_append, List.length_cons]; omega)]
  rw [show k.length + 1 + j = k.length + (j + 1) from by omega]
  rw [getN_append_right nulc k ('=' :: v) (j + 1)]
  rfl

/-- The newline byte of a serialized entry. -/
theorem getN_ser_nl (k v : List Char) (r : List (List Char × List Char)) :
    getN nulc (serialize_entries ((k, v) :: r)) (k.length + 1 + v.length) = '\n' := by
  rw [ser_cons]
  have hlen : (k ++ '=' :: v).length = k.length + 1 + v.length := by simp; omega
  rw [show k.length + 1 + v.length = (k ++ '=' :: v).length + 0 from by omega]
  rw [getN_append_right nulc (k ++ '=' :: v) ('\n' :: serialize_entries r) 0]
  rfl

/-- Lemma: `string_trim_end` does nothing when the char at the position is not a
space. -/
theorem trim_noop (source : List Char) (p : Nat) (h : getN nulc source p ≠ ' ') :
    string_trim_end source p = p := by
  cases p with
  | zero => rw [string_trim_end, if_pos h]
  | succ q => rw [string_trim_end, if_pos h]

/-- Digits are not letters. -/
theorem isdigit_not_alpha (c : Char) (h : isdigit c = true) : isalpha c = false := by
  simp only [isdigit, Bool.and_eq_true, decide_eq_true_eq] at h
  by_contra hal
  rw [Bool.not_eq_false] at hal
  simp only [isalpha, Bool.or_eq_true, Bool.and_eq_true, decide_eq_true_eq] at hal
  rcases hal with ⟨h1, _⟩ | ⟨h1, _⟩
  · exact absurd (le_trans h1 h.2) (by decide)
  · exact absurd (le_trans h1 h.2) (by decide)

/-- Letter-key continuation chars satisfy the loop's elaborated condition. -/
theorem keyCharAl_elab (c : Char) (h : keyCharAl c = true) :
    (isalpha c || c = '_') = true := by
  simp only [keyCharAl, Bool.or_eq_true, beq_iff_eq] at h
  rcases h with h | h
  · simp [h]
  · simp [h]

/-- Valid value-start chars satisfy the parser's elaborated condition. -/
theorem valueStart_elab (c : Char) (h : valueStartB c = true) :
    (isalpha c || isdigit c || c = '-' || c = '.') = true := by
  simp only [valueStartB, Bool.or_eq_true, beq_iff_eq] at h
  simp only [Bool.or_eq_true, decide_eq_true_eq]
  tauto

/-- A valid key token at `pos` followed by `'='`: exactly one of the two key
scan loops runs, and it lands on the last key char. -/
theorem keyLoop_run (buf : List Char) (pos fuel : Nat) (k : List Char)
    (hk : validKeyB k = true)
    (hch : ∀ j, j < k.length → getN nulc buf (pos + j) = getN nulc k j)
    (hstop : getN nulc buf (pos + k.length) = '=')
    (hb : pos + k.length ≤ buf.length) (hf : k.length ≤ fuel) :
    (isalpha (getN nulc buf pos) = true
      ∧ alphaKeyLoop buf fuel pos = .found (pos + (k.length - 1)))
    ∨ (isalpha (getN nulc buf pos) = false ∧ isdigit (getN nulc buf pos) = true
      ∧ digitKeyLoop buf fuel pos = .found (pos + (k.length - 1))) := by
  simp only [validKeyB, Bool.or_eq_true] at hk
  rcases hk with hk | hk
  · -- letter key
    cases k with
    | nil => simp [alphaKeyB] at hk
    | cons k0 ktail =>
      simp only [alphaKeyB, Bool.and_eq_true] at hk
      obtain ⟨hk0, htail⟩ := hk
      rw [allChars_iff] at htail
      have hc0 : getN nulc buf pos = k0 := by
        have := hch 0 (by simp)
        simpa using this
      left
      refine ⟨by rw [hc0]; exact hk0, ?_⟩
      have hrun := alphaKeyLoop_run buf ktail.length pos fuel
        (fun j hj => by
          unfold bufAt
          have hgc : getN nulc buf (pos+1+j) = getN nulc (k0 :: ktail) (j+1) := by
            rw [show pos+1+j = pos + (j+1) from by omega]
            exact hch (j+1) (by simp; omega)
          rw [hgc, show getN nulc (k0 :: ktail) (j+1) = getN nulc ktail j from rfl]
          exact keyCharAl_elab _ (htail _ (getN_mem nulc ktail j hj)))
        (by
          unfold bufAt
          rw [show pos+1+ktail.length = pos + (k0 :: ktail).length from by
            simp only [List.length_cons]; omega]
          rw [hstop]
          decide)
        (by simp only [List.length_cons] at hb; omega)
        (by simp only [List.length_cons] at hf; omega)
      rw [hrun]
      congr 1
  · -- digit key
    cases k with
    | nil => simp [digitKeyB] at hk
    | cons k0 ktail =>
      simp only [digitKeyB, Bool.and_eq_true] at hk
      obtain ⟨hk0, htail⟩ := hk
      rw [allChars_iff] at htail
      have hc0 : getN nulc buf pos = k0 := by
        have := hch 0 (by simp)
        simpa using this
      right
      refine ⟨by rw [hc0]; exact isdigit_not_alpha k0 hk0, by rw [hc0]; exact hk0, ?_⟩
      have hrun := digitKeyLoop_run buf ktail.length pos fuel
        (fun j hj => by
          unfold bufAt
          have hgc : getN nulc buf (pos+1+j) = getN nulc (k0 :: ktail) (j+1) := by
            rw [show pos+1+j = pos + (j+1) from by omega]
            exact hch (j+1) (by simp; omega)
          rw [hgc, show getN nulc (k0 :: ktail) (j+1) = getN nulc ktail j from rfl]
          exact htail _ (getN_mem nulc ktail j hj))
        (by
          unfold bufAt
          rw [show pos+1+ktail.length = pos + (k0 :: ktail).length from by
            simp only [List.length_cons]; omega]
          rw [hstop]
          decide)
        (by simp only [List.length_cons] at hb; omega)
        (by simp only [List.length_cons] at hf; omega)
      rw [hrun]
      congr 1

/-- Writing the same slot twice keeps the second write. -/
theorem setN_setN {α : Type} :
    ∀ (l : List α) (i : Nat) (a b : α), setN (setN l i a) i b = setN l i b
  | [], _, _, _ => rfl
  | _ :: _, 0, _, _ => rfl
  | x :: t, i+1, a, b => congrArg (List.cons x) (setN_setN t i a b)

/-- The head of a valid key token is a letter or a digit. -/
theorem validKeyB_head (k : List Char) (h : validKeyB k = true) :
    isalpha (getN nulc k 0) = true ∨ isdigit (getN nulc k 0) = true := by
  cases k with
  | nil => simp [validKeyB, alphaKeyB, digitKeyB] at h
  | cons c k' =>
    simp only [validKeyB, alphaKeyB, digitKeyB, Bool.or_eq_true, Bool.and_eq_true] at h
    rcases h with ⟨hc, _⟩ | ⟨hc, _⟩
    · exact Or.inl hc
    · exact Or.inr hc

/-- The no-trailing-space condition at the last value index. -/
theorem lastD_getN_ne (v : List Char) (hv : v ≠ []) (h : lastD v nulc ≠ ' ') :
    getN nulc v (v.length - 1) ≠ ' ' := by
  cases v with
  | nil => exact absurd rfl hv
  | cons c v' =>
    rw [lastD_eq_getN] at h
    simpa using h

/-- One `key=value\n` line of a serialized entry list is consumed in four
iterations of the lexer loop, writing the canonical line into slot `i` and
advancing `current_line` and `size`. -/
theorem parse_one_entry (pre k v : List Char) (rest' : List (List Char × List Char))
    (clines : List tc_line) (i ks f : Nat)
    (hwfe : wfEntry k v = true) (hi : i < 20) (hclen : clines.length = 20)
    (hshape : ∀ j, j < 20 → (getN default clines j).chars.length = 64) :
    ∃ nl : tc_line,
      parseGo (pre ++ serialize_entries ((k, v) :: rest')) (f+4) pre.length i ks false
          ⟨clines, i⟩
        = parseGo (pre ++ serialize_entries ((k, v) :: rest')) f
            (pre.length + (k.length + v.length + 2)) (i+1) (k.length - 1) false
            ⟨setN clines i nl, i+1⟩
      ∧ nl.offset = k.length + 1 ∧ nl.chars.length = 64
      ∧ cString nl.chars = k ++ '=' :: v := by
  obtain ⟨hkB, hvB, hbound⟩ := wfEntry_facts k v hwfe
  obtain ⟨hkne, hknul, hkeq⟩ := validKeyB_facts k hkB
  obtain ⟨hvne, hvok, hvstart, hvlast⟩ := validValueB_facts v hvB
  have hK1 : 1 ≤ k.length := List.length_pos.mpr hkne
  have hV1 : 1 ≤ v.length := List.length_pos.mpr hvne
  have hser := ser_len k v rest'
  have hblen : (pre ++ serialize_entries ((k, v) :: rest')).length
      = pre.length + (k.length + 1 + v.length + 1)
        + (serialize_entries rest').length := by
    rw [List.length_append, hser]
    omega
  set buf := pre ++ serialize_entries ((k, v) :: rest') with hbufdef
  set P := pre.length with hPdef
  have hchar : ∀ idx, getN nulc buf (P + idx)
      = getN nulc (serialize_entries ((k, v) :: rest')) idx :=
    fun idx => getN_append_right nulc pre _ idx
  have hkey : ∀ j, j < k.length → getN nulc buf (P + j) = getN nulc k j :=
    fun j hj => by rw [hchar j, getN_ser_key k v rest' j hj]
  have heqc : getN nulc buf (P + k.length) = '=' := by
    rw [hchar k.length, getN_ser_eq]
  have hval : ∀ j, j < v.length →
      getN nulc buf (P + (k.length + 1 + j)) = getN nulc v j :=
    fun j hj => by rw [hchar (k.length + 1 + j), getN_ser_val k v rest' j hj]
  have hnlc : getN nulc buf (P + (k.length + 1 + v.length)) = '\n' := by
    rw [hchar (k.length + 1 + v.length), getN_ser_nl]
  -- head char and its dispatch facts
  have hc0 : getN nulc buf P = getN nulc k 0 := hkey 0 (by omega)
  have hk0 : isalpha (getN nulc buf P) = true ∨ isdigit (getN nulc buf P) = true := by
    rw [hc0]; exact validKeyB_head k hkB
  have hdisp := keyStart_dispatch _ hk0
  -- the key scan
  have hkl := keyLoop_run buf P (buf.length + 2) k hkB hkey heqc (by omega) (by omega)
  -- step 1: key token processed
  have hfin : keyFinish buf P (P + (k.length - 1)) i ⟨clines, i⟩
      = Sum.inr (⟨setN clines i
          ⟨k.length + 1,
            setN (string_copy_slice buf P (P + (k.length - 1))
              (getN default clines i).chars 0) k.length '='⟩, i⟩, k.length - 1) := by
    unfold keyFinish
    rw [show P + (k.length - 1) - P = k.length - 1 from by omega]
    rw [if_neg (show ¬((⟨clines, i⟩ : tc_config).size = TC_CONFIG_MAX_SIZE) by
      simp only [TC_CONFIG_MAX_SIZE]; omega)]
    rw [if_neg (show ¬(k.length - 1 ≥ TC_LINE_MAX_SIZE) by
      simp only [TC_LINE_MAX_SIZE]; omega)]
    simp only []
    rw [show k.length - 1 + 2 = k.length + 1 from by omega,
      show k.length - 1 + 1 = k.length from by omega]
  have hred : parseGo buf ((f+3)+1) P i ks false ⟨clines, i⟩
      = (match keyFinish buf P (P + (k.length - 1)) i (⟨clines, i⟩ : tc_config) with
         | Sum.inl e => ParseOut.err e ⟨clines, i⟩
         | Sum.inr (cfg', ks') =>
             parseGo buf (f+3) ((P + (k.length - 1)) + 1) i ks' false cfg') := by
    rw [parseGo, if_pos (show P < buf.length by omega)]
    simp only []
    rw [if_neg hdisp.1, if_neg hdisp.2.1, if_neg hdisp.2.2.1,
      if_neg (show ¬(false = true) by simp)]
    rcases hkl with ⟨hal, hloop⟩ | ⟨haln, hdig, hloop⟩
    · rw [if_pos hal, hloop]
    · rw [if_neg (show ¬(isalpha (getN nulc buf P) = true) by simp [haln]),
        if_pos hdig, hloop]
  have hstep1 : parseGo buf ((f+3)+1) P i ks false ⟨clines, i⟩
      = parseGo buf (f+3) (P + k.length) i (k.length - 1) false
          ⟨setN clines i
            ⟨k.length + 1,
              setN (string_copy_slice buf P (P + (k.length - 1))
                (getN default clines i).chars 0) k.length '='⟩, i⟩ := by
    rw [hred, hfin, show (P + (k.length - 1)) + 1 = P + k.length from by omega]
  -- abbreviations for the written line pieces
  set TC := (getN default clines i).chars with hTCdef
  have hTC : TC.length = 64 := hshape i hi
  set chars1 := string_copy_slice buf P (P + (k.length - 1)) TC 0 with hchars1def
  have hchars1len : chars1.length = 64 := by
    rw [hchars1def]
    unfold string_copy_slice
    rw [copy_fwd_length, hTC]
  set chars2 := setN chars1 k.length '=' with hchars2def
  have hchars2len : chars2.length = 64 := by
    rw [hchars2def, length_setN, hchars1len]
  set L1 : tc_line := ⟨k.length + 1, chars2⟩ with hL1def
  -- step 2: the '=' sign
  have hstep2 : parseGo buf (f+3) (P + k.length) i (k.length - 1) false
        ⟨setN clines i L1, i⟩
      = parseGo buf (f+2) (P + k.length + 1) i (k.length - 1) true
        ⟨setN clines i L1, i⟩ := by
    rw [show (f+3 : Nat) = (f+2)+1 from rfl]
    rw [parseGo, if_pos (show P + k.length < buf.length by omega)]
    simp only []
    rw [if_neg (show ¬(getN nulc buf (P + k.length) = '\r'
        ∨ getN nulc buf (P + k.length) = '\n' ∨ getN nulc buf (P + k.length) = ' '
        ∨ getN nulc buf (P + k.length) = '\t') by rw [heqc]; decide)]
    rw [if_neg (show ¬(getN nulc buf (P + k.length) = '#') by rw [heqc]; decide)]
    rw [if_pos heqc]
  -- the value character and scan
  have hcv : getN nulc buf (P + k.length + 1) = getN nulc v 0 := by
    have := hval 0 (by omega)
    rw [show P + (k.length + 1 + 0) = P + k.length + 1 from by omega] at this
    exact this
  have hvd := valueStart_dispatch (getN nulc buf (P + k.length + 1))
    (by rw [hcv]; exact hvstart)
  have hvloop := valueLoop_run buf (v.length - 1) (P + k.length + 1) (buf.length + 2)
    (fun j hj => by
      unfold bufAt
      have := hval (j+1) (by omega)
      rw [show P + (k.length + 1 + (j+1)) = P + k.length + 1 + 1 + j from by omega] at this
      rw [this]
      exact hvok _ (getN_mem nulc v (j+1) (by omega)))
    (by
      unfold bufAt
      rw [show P + k.length + 1 + 1 + (v.length - 1) = P + (k.length + 1 + v.length)
        from by omega, hnlc]
      decide)
    (by omega) (by omega)
  -- step 3: the value token processed
  have hred3 : parseGo buf ((f+1)+1) (P + k.length + 1) i (k.length - 1) true
        ⟨setN clines i L1, i⟩
      = (if (P + k.length + 1 + (v.length - 1)) - (P + k.length + 1) + (k.length - 1) + 2
            ≥ TC_LINE_MAX_SIZE then
          ParseOut.err (.lineOverflow i) ⟨setN clines i L1, i⟩
        else
          parseGo buf (f+1) ((P + k.length + 1 + (v.length - 1)) + 1) (i+1)
            (k.length - 1) false
            ⟨setN (setN clines i L1) i
              ⟨(getN default (setN clines i L1) i).offset,
                string_copy_slice_null buf (P + k.length + 1)
                  (string_trim_end buf (P + k.length + 1 + (v.length - 1)))
                  (getN default (setN clines i L1) i).chars ((k.length - 1) + 2)⟩,
              i + 1⟩) := by
    rw [parseGo, if_pos (show P + k.length + 1 < buf.length by omega)]
    simp only []
    rw [if_neg hvd.1, if_neg hvd.2.1, if_neg hvd.2.2.1,
      if_pos trivial,
      if_pos (by rw [hcv]; exact valueStart_elab _ hvstart), hvloop]
  have htrim : string_trim_end buf (P + k.length + 1 + (v.length - 1))
      = P + k.length + 1 + (v.length - 1) := by
    apply trim_noop
    have := hval (v.length - 1) (by omega)
    rw [show P + (k.length + 1 + (v.length - 1)) = P + k.length + 1 + (v.length - 1)
      from by omega] at this
    rw [this]
    exact lastD_getN_ne v hvne hvlast
  have hgetL1 : getN default (setN clines i L1) i = L1 :=
    getN_setN_self default clines i L1 (by omega)
  set chars' := string_copy_slice_null buf (P + k.length + 1) (P + k.length + v.length)
    chars2 (k.length + 1) with hcharsPdef
  have hstep3 : parseGo buf (f+2) (P + k.length + 1) i (k.length - 1) true
        ⟨setN clines i L1, i⟩
      = parseGo buf (f+1) (P + k.length + v.length + 1) (i+1) (k.length - 1) false
        ⟨setN clines i ⟨k.length + 1, chars'⟩, i + 1⟩ := by
    rw [show (f+2 : Nat) = (f+1)+1 from rfl]
    rw [hred3]
    rw [if_neg (show ¬((P + k.length + 1 + (v.length - 1)) - (P + k.length + 1)
        + (k.length - 1) + 2 ≥ TC_LINE_MAX_SIZE) by
      simp only [TC_LINE_MAX_SIZE]; omega)]
    rw [htrim, hgetL1, setN_setN]
    rw [show (L1 : tc_line).offset = k.length + 1 from rfl,
      show (L1 : tc_line).chars = chars2 from rfl]
    rw [show (k.length - 1) + 2 = k.length + 1 from by omega]
    rw [show P + k.length + 1 + (v.length - 1) = P + k.length + v.length from by omega]
  -- step 4: the newline
  have hstep4 : parseGo buf (f+1) (P + k.length + v.length + 1) (i+1) (k.length - 1) false
        ⟨setN clines i ⟨k.length + 1, chars'⟩, i + 1⟩
      = parseGo buf f (P + k.length + v.length + 1 + 1) (i+1) (k.length - 1) false
        ⟨setN clines i ⟨k.length + 1, chars'⟩, i + 1⟩ := by
    rw [parseGo, if_pos (show P + k.length + v.length + 1 < buf.length by omega)]
    simp only []
    rw [if_pos (show getN nulc buf (P + k.length + v.length + 1) = '\r'
        ∨ getN nulc buf (P + k.length + v.length + 1) = '\n'
        ∨ getN nulc buf (P + k.length + v.length + 1) = ' '
        ∨ getN nulc buf (P + k.length + v.length + 1) = '\t' by
      right; left
      rw [show P + k.length + v.length + 1 = P + (k.length + 1 + v.length) from by omega]
      exact hnlc)]
  -- assemble the equation and the line facts
  refine ⟨⟨k.length + 1, chars'⟩, ?_, rfl, ?_, ?_⟩
  · rw [show (f+4 : Nat) = (f+3)+1 from rfl, hstep1, hstep2, hstep3, hstep4]
    rw [show P + (k.length + v.length + 2) = P + k.length + v.length + 1 + 1 from by omega]
  · show chars'.length = 64
    rw [hcharsPdef]
    unfold string_copy_slice_null
    rw [length_setN, copy_fwd_length, hchars2len]
  · show cString chars' = k ++ '=' :: v
    have hcount : (P + k.length + v.length) - (P + k.length + 1) + 1 = v.length := by
      omega
    have hCFlen : (copy_fwd buf (P + k.length + 1) chars2 (k.length + 1) v.length).length
        = 64 := by rw [copy_fwd_length, hchars2len]
    have hchars'eq : chars' = setN
        (copy_fwd buf (P + k.length + 1) chars2 (k.length + 1) v.length)
        (k.length + 1 + v.length) nulc := by
      rw [hcharsPdef]
      unfold string_copy_slice_null
      rw [hcount]
    apply cString_eq_of_getN
    · simp only [List.length_append, List.length_cons]
      rw [hchars'eq, length_setN, hCFlen]
      omega
    · intro j hj
      simp only [List.length_append, List.length_cons] at hj
      rw [hchars'eq]
      rcases Nat.lt_trichotomy j k.length with hcase | hcase | hcase
      · -- key region
        rw [getN_setN_ne nulc _ _ j _ (by omega)]
        rw [copy_fwd_getN_lo buf v.length (P + k.length + 1) chars2 (k.length + 1) j
          (by omega)]
        rw [hchars2def, getN_setN_ne nulc chars1 k.length j '=' (by omega)]
        rw [hchars1def]
        unfold string_copy_slice
        rw [show (P + (k.length - 1)) - P + 1 = k.length from by omega]
        have hin := copy_fwd_getN_in buf k.length P TC 0 j hcase (by rw [hTC]; omega)
        rw [show (0 : Nat) + j = j from by omega] at hin
        rw [hin, hkey j hcase]
        rw [getN_append_left nulc k ('=' :: v) j hcase]
      · -- the '=' position
        rw [hcase]
        rw [getN_setN_ne nulc _ _ k.length _ (by omega)]
        rw [copy_fwd_getN_lo buf v.length (P + k.length + 1) chars2 (k.length + 1)
          k.length (by omega)]
        rw [hchars2def, getN_setN_self nulc chars1 k.length '=' (by rw [hchars1len]; omega)]
        have := getN_append_right nulc k ('=' :: v) 0
        simpa using this.symm
      · -- value region
        obtain ⟨j', rfl⟩ : ∃ j', j = k.length + 1 + j' := ⟨j - k.length - 1, by omega⟩
        have hj' : j' < v.length := by omega
        rw [getN_setN_ne nulc _ _ _ _ (by omega)]
        have hin := copy_fwd_getN_in buf v.length (P + k.length + 1) chars2
          (k.length + 1) j' hj' (by rw [hchars2len]; omega)
        rw [hin]
        have hvv := hval j' hj'
        rw [show P + (k.length + 1 + j') = P + k.length + 1 + j' from by omega] at hvv
        rw [hvv]
        have hr := getN_append_right nulc k ('=' :: v) (1 + j')
        rw [show k.length + (1 + j') = k.length + 1 + j' from by omega] at hr
        rw [hr, show (1 : Nat) + j' = j' + 1 from by omega]
        rfl
    · intro c hc
      rcases List.mem_append.mp hc with hck | hcv'
      · exact hknul c hck
      · rcases List.mem_cons.mp hcv' with rfl | hcv''
        · decide
        · exact (valueOkChar_ne c (hvok c hcv'')).2.2.1
    · simp only [List.length_append, List.length_cons]
      rw [hchars'eq]
      rw [show k.length + (v.length + 1) = k.length + 1 + v.length from by omega]
      exact getN_setN_self nulc _ _ nulc (by rw [hCFlen]; omega)

/-- Parsing the serialization of a well-formed entry list, starting at slot
`i` of a well-shaped arena, succeeds and writes exactly those entries in
order into slots `i`, `i+1`, …, leaving all other slots untouched. -/
theorem parse_serialize :
    ∀ (rest : List (List Char × List Char)) (pre : List Char) (clines : List tc_line)
      (i ks f : Nat),
    wfEntriesB rest = true → i + rest.length ≤ 20 →
    clines.length = 20 →
    (∀ j, j < 20 → (getN default clines j).chars.length = 64) →
    (serialize_entries rest).length < f →
    ∃ lines',
      parseGo (pre ++ serialize_entries rest) f pre.length i ks false ⟨clines, i⟩
        = .ok ⟨lines', i + rest.length⟩
      ∧ lines'.length = 20
      ∧ (∀ j, j < 20 → (getN default lines' j).chars.length = 64)
      ∧ (∀ j, j < i → getN default lines' j = getN default clines j)
      ∧ (∀ j, i + rest.length ≤ j → getN default lines' j = getN default clines j)
      ∧ (∀ j, j < rest.length → lineMatchesP (getN default lines' (i + j))
          (getN ([], []) rest j))
  | [], pre, clines, i, ks, f, _, _, hclen, hshape, hf => by
    obtain ⟨f', rfl⟩ : ∃ f', f = f' + 1 := ⟨f - 1, by omega⟩
    refine ⟨clines, ?_, hclen, hshape, fun j _ => rfl, fun j _ => rfl, fun j hj => by simp at hj⟩
    rw [show serialize_entries ([] : List (List Char × List Char)) = [] from rfl,
      List.append_nil]
    rw [parseGo, if_neg (show ¬(pre.length < pre.length) by omega)]
    simp only [List.length_nil, Nat.add_zero]
  | (k, v) :: rest', pre, clines, i, ks, f, hwf, hile, hclen, hshape, hf => by
    simp only [wfEntriesB, Bool.and_eq_true] at hwf
    obtain ⟨hwfe, hwfr⟩ := hwf
    obtain ⟨hkB, hvB, hbound⟩ := wfEntry_facts k v hwfe
    have hK1 : 1 ≤ k.length := List.length_pos.mpr (validKeyB_facts k hkB).1
    have hV1 : 1 ≤ v.length := List.length_pos.mpr (validValueB_facts v hvB).1
    have hsl := ser_len k v rest'
    have hi : i < 20 := by simp only [List.length_cons] at hile; omega
    obtain ⟨f', rfl⟩ : ∃ f', f = f' + 4 := ⟨f - 4, by omega⟩
    obtain ⟨nl, heq, hnloff, hnllen, hnlcs⟩ :=
      parse_one_entry pre k v rest' clines i ks f' hwfe hi hclen hshape
    rw [heq]
    have hsplit : pre ++ serialize_entries ((k, v) :: rest')
        = (pre ++ ((k ++ '=' :: v) ++ ['\n'])) ++ serialize_entries rest' := by
      rw [ser_cons]
      simp [List.append_assoc]
    have hplen : (pre ++ ((k ++ '=' :: v) ++ ['\n'])).length
        = pre.length + (k.length + v.length + 2) := by
      simp only [List.length_append, List.length_cons, List.length_nil]
      omega
    rw [hsplit, ← hplen]
    obtain ⟨lines', hEq, h20, hsh', hlo, hhi, hmat⟩ :=
      parse_serialize rest' (pre ++ ((k ++ '=' :: v) ++ ['\n'])) (setN clines i nl)
        (i+1) (k.length - 1) f' hwfr
        (by simp only [List.length_cons] at hile; omega)
        (by rw [length_setN]; exact hclen)
        (fun j hj => by
          by_cases hji : i = j
          · rw [← hji, getN_setN_self default clines i nl (by omega), hnllen]
          · rw [getN_setN_ne default clines i j nl hji]
            exact hshape j hj)
        (by omega)
    refine ⟨lines', ?_, h20, hsh', ?_, ?_, ?_⟩
    · rw [hEq]
      simp only [List.length_cons]
      rw [show i + 1 + rest'.length = i + (rest'.length + 1) from by omega]
    · intro j hj
      rw [hlo j (by omega), getN_setN_ne default clines i j nl (by omega)]
    · intro j hj
      simp only [List.length_cons] at hj
      rw [hhi j (by omega), getN_setN_ne default clines i j nl (by omega)]
    · intro j hj
      simp only [List.length_cons] at hj
      cases j with
      | zero =>
        have hli : getN default lines' (i + 0) = nl := by
          rw [show i + 0 = i from by omega, hlo i (by omega),
            getN_setN_self default clines i nl (by omega)]
        rw [hli]
        exact ⟨hnloff, hnllen, hnlcs⟩
      | succ j' =>
        have := hmat j' (by omega)
        rw [show i + (j' + 1) = i + 1 + j' from by omega]
        exact this

/-- Saving a store of canonical lines writes exactly the serialization of
its entries. -/
theorem save_take_serialize :
    ∀ (ls : List tc_line) (n : Nat), linesWFB ls n = true →
    save_take ls n = serialize_entries (entriesTake ls n)
  | ls, 0, _ => by cases ls <;> rfl
  | [], _+1, h => by simp [linesWFB] at h
  | l :: rest, n+1, h => by
    simp only [linesWFB, Bool.and_eq_true] at h
    obtain ⟨hl, hrest⟩ := h
    obtain ⟨k, v, _, _, _, hcs, hsk, hsv, _⟩ := lineWF_full l hl
    show cString l.chars ++ '\n' :: save_take rest n
      = serialize_entries ((storedKey l, storedValue l) :: entriesTake rest n)
    rw [hsk, hsv, ser_cons, hcs, save_take_serialize rest n hrest]

/-- The entries of a store of canonical lines are well formed, one per line. -/
theorem entriesTake_wf :
    ∀ (ls : List tc_line) (n : Nat), linesWFB ls n = true →
    wfEntriesB (entriesTake ls n) = true ∧ (entriesTake ls n).length = n
  | ls, 0, _ => by cases ls <;> exact ⟨rfl, rfl⟩
  | [], _+1, h => by simp [linesWFB] at h
  | l :: rest, n+1, h => by
    simp only [linesWFB, Bool.and_eq_true] at h
    obtain ⟨hl, hrest⟩ := h
    obtain ⟨k, v, hwf, _, _, _, hsk, hsv, _⟩ := lineWF_full l hl
    obtain ⟨ih1, ih2⟩ := entriesTake_wf rest n hrest
    constructor
    · show (wfEntry (storedKey l) (storedValue l) && wfEntriesB (entriesTake rest n)) = true
      rw [hsk, hsv, hwf, ih1]
      rfl
    · show (entriesTake rest n).length + 1 = n + 1
      rw [ih2]

/-- Unpacking `arenaShapeB` into indexed facts. -/
theorem arenaShapeB_facts (cfg0 : tc_config) (h : arenaShapeB cfg0 = true) :
    cfg0.lines.length = 20 ∧ ∀ j, j < 20 → (getN default cfg0.lines j).chars.length = 64 := by
  simp only [arenaShapeB, Bool.and_eq_true, beq_iff_eq, List.all_eq_true] at h
  obtain ⟨hlen, hall⟩ := h
  refine ⟨hlen, fun j hj => ?_⟩
  have := hall _ (getN_mem default cfg0.lines j (by omega))
  exact this

/-- A canonical line exposes exactly its key and value. -/
theorem stored_of_canonical (l : tc_line) (k v : List Char)
    (hoff : l.offset = k.length + 1) (hlen : l.chars.length = 64)
    (hcs : cString l.chars = k ++ '=' :: v) (hwf : wfEntry k v = true) :
    storedKey l = k ∧ storedValue l = v
      ∧ (∀ j, j < k.length → getN nulc l.chars j ≠ nulc) := by
  obtain ⟨hkB, hvB, hbound⟩ := wfEntry_facts k v hwf
  obtain ⟨hkne, hknul, hkeq⟩ := validKeyB_facts k hkB
  obtain ⟨hvne, hvok, _, _⟩ := validValueB_facts v hvB
  have hvlen : 1 ≤ v.length := List.length_pos.mpr hvne
  have hslen : (cString l.chars).length = k.length + 1 + v.length := by
    rw [hcs]; simp; omega
  rcases cString_split l.chars with hsp | ⟨t, hsp⟩
  · rw [hsp] at hslen
    omega
  · have hchars : l.chars = k ++ '=' :: (v ++ nulc :: t) := by
      rw [hsp, hcs]
      simp
    refine ⟨?_, ?_, ?_⟩
    · unfold storedKey
      rw [hoff]
      simp only [sub_one_64, if_neg (by omega : ¬(k.length + 1 = 0))]
      rw [Nat.add_sub_cancel, hchars, take_append_len]
    · unfold storedValue
      rw [hoff, hchars, drop_append_len1]
      exact cString_append_nul v t (fun c hc => (valueOkChar_ne c (hvok c hc)).2.2.1)
    · intro j hj
      rw [hchars, getN_append_left nulc _ _ j hj]
      exact hknul _ (getN_mem nulc k j hj)

/-- Reconstructing an entry list from per-slot canonical facts. -/
theorem entriesTake_eq :
    ∀ (es : List (List Char × List Char)) (ls : List tc_line), es.length ≤ ls.length →
    (∀ j, j < es.length → lineMatchesP (getN default ls j) (getN ([], []) es j)) →
    (∀ e ∈ es, wfEntry e.1 e.2 = true) →
    entriesTake ls es.length = es
  | [], ls, _, _, _ => by cases ls <;> rfl
  | e :: es', [], hle, _, _ => by simp at hle
  | e :: es', l :: ls', hle, hm, hwf => by
    obtain ⟨k, v⟩ := e
    have h0 := hm 0 (by simp)
    obtain ⟨hoff, hlen, hcs⟩ := h0
    obtain ⟨hsk, hsv, _⟩ := stored_of_canonical l k v hoff hlen hcs
      (hwf (k, v) (List.mem_cons_self _ _))
    show (storedKey l, storedValue l) :: entriesTake ls' es'.length = (k, v) :: es'
    rw [hsk, hsv, entriesTake_eq es' ls' (by simpa using hle)
      (fun j hj => hm (j+1) (by simp; omega))
      (fun x hx => hwf x (List.mem_cons_of_mem _ hx))]

/-- Membership form of `wfEntriesB`. -/
theorem wfEntriesB_mem :
    ∀ (es : List (List Char × List Char)), wfEntriesB es = true →
    ∀ e ∈ es, wfEntry e.1 e.2 = true
  | [], _, e, he => by simp at he
  | e0 :: r, h, e, he => by
    simp only [wfEntriesB, Bool.and_eq_true] at h
    rcases List.mem_cons.mp he with rfl | he'
    · exact h.1
    · exact wfEntriesB_mem r h.2 e he'

/-- Claim C8, amended: the spec's round trip holds for stores whose visible
entries are all in canonical `key=value` shape (nonempty key and value
tokens of the accepted grammar, fitting one line slot) and that hold at
least one entry (an empty store saves an empty file, which `load` rejects
by design).  Stores reachable through the keyless-value quirk (see the
counterexample) are excluded.  For every such store, `save` then `load`
succeeds and reproduces exactly the same ordered key/value pairs. -/
theorem c8_theorem (cfg cfg0 : tc_config) (hwf : storeWFB cfg = true)
    (hpos : 1 ≤ cfg.size) (h0 : arenaShapeB cfg0 = true) :
    ∃ cfg', tc_load_config cfg0 (tc_save_to_file cfg) = some (ParseOut.ok cfg')
      ∧ entriesOf cfg' = entriesOf cfg ∧ cfg'.size = cfg.size := by
  obtain ⟨hsz, hlen, hlines⟩ := storeWFB_facts cfg hwf
  obtain ⟨h0len, h0shape⟩ := arenaShapeB_facts cfg0 h0
  obtain ⟨hwfE, hEn⟩ := entriesTake_wf cfg.lines cfg.size hlines
  have hsave : tc_save_to_file cfg = serialize_entries (entriesTake cfg.lines cfg.size) :=
    save_take_serialize cfg.lines cfg.size hlines
  have hserpos : 1 ≤ (serialize_entries (entriesTake cfg.lines cfg.size)).length := by
    rcases hE : entriesTake cfg.lines cfg.size with _ | ⟨⟨k, v⟩, r⟩
    · rw [hE] at hEn
      simp at hEn
      omega
    · rw [ser_len]
      omega
  obtain ⟨lines', hEq, h20, hsh', hlo, hhi, hmat⟩ :=
    parse_serialize (entriesTake cfg.lines cfg.size) [] cfg0.lines 0 0
      ((serialize_entries (entriesTake cfg.lines cfg.size)).length + 2)
      hwfE (by omega) h0len h0shape (by omega)
  rw [List.nil_append] at hEq
  simp only [List.length_nil, Nat.zero_add] at hEq
  refine ⟨⟨lines', (entriesTake cfg.lines cfg.size).length⟩, ?_, ?_, ?_⟩
  · rw [show tc_save_to_file cfg
        = serialize_entries (entriesTake cfg.lines cfg.size) from hsave]
    unfold tc_load_config
    rw [if_neg (by omega)]
    unfold tc_parse_config
    rw [hEn] at hEq ⊢
    exact congrArg some hEq
  · show entriesTake lines' (entriesTake cfg.lines cfg.size).length
      = entriesTake cfg.lines cfg.size
    apply entriesTake_eq _ lines' (by rw [h20]; omega)
      (fun j hj => by
        have := hmat j hj
        simpa using this)
      (wfEntriesB_mem _ hwfE)
  · show (entriesTake cfg.lines cfg.size).length = cfg.size
    exact hEn

/-- Claim C8, witness: the general round-trip theorem applied to the
two-entry store loaded from `"a=b c\n77=-1.5\n"` (an interior space and a
numeric key/value exercise the grammar), reloading into the fresh arena. -/
theorem c8_witness :
    storeWFB (load_config (tc_load_config initConfig (str ("a=b c\n77=-1.5\n")))) = true
    ∧ 1 ≤ (load_config (tc_load_config initConfig (str ("a=b c\n77=-1.5\n")))).size
    ∧ arenaShapeB initConfig = true
    ∧ ∃ cfg', tc_load_config initConfig
        (tc_save_to_file (load_config (tc_load_config initConfig
          (str ("a=b c\n77=-1.5\n"))))) = some (ParseOut.ok cfg')
      ∧ entriesOf cfg'
          = entriesOf (load_config (tc_load_config initConfig (str ("a=b c\n77=-1.5\n"))))
      ∧ cfg'.size
          = (load_config (tc_load_config initConfig (str ("a=b c\n77=-1.5\n")))).size :=
  ⟨by decide, by decide, by decide,
    c8_theorem (load_config (tc_load_config initConfig (str ("a=b c\n77=-1.5\n"))))
      initConfig (by decide) (by decide) (by decide)⟩

/-- Characters of `keyPart s` come from `s` and are never `'='`. -/
theorem keyPart_facts : ∀ (s : List Char), ∀ c ∈ keyPart s, c ∈ s ∧ c ≠ '='
  | [] => by simp [keyPart]
  | c0 :: s' => by
    by_cases hc : c0 = '='
    · simp [keyPart, hc]
    · simp only [keyPart, if_neg hc]
      intro c hcm
      rcases List.mem_cons.mp hcm with rfl | h'
      · exact ⟨List.mem_cons_self _ _, hc⟩
      · obtain ⟨h1, h2⟩ := keyPart_facts s' c h'
        exact ⟨List.mem_cons_of_mem _ h1, h2⟩

/-- Building `entryInvB` from the canonical facts (no grammar condition on
the value needed — `tc_set_value` can store arbitrary value bytes). -/
theorem entryInvB_of_shape (l : tc_line) (k v : List Char)
    (hoff : l.offset = k.length + 1) (hlen : l.chars.length = 64)
    (hkne : k ≠ []) (hkeq : ∀ c ∈ k, c ≠ '=')
    (hcs : cString l.chars = k ++ '=' :: v)
    (hslen : (cString l.chars).length < 64) :
    entryInvB l = true := by
  have hkp2 : keyPart (k ++ '=' :: v) = k := keyPart_append k v hkeq
  have hdrop2 : (k ++ '=' :: v).drop (k.length + 1) = v := drop_append_len1 k '=' v
  have hl64 : (k ++ '=' :: v).length < 64 := by rw [← hcs]; exact hslen
  obtain ⟨c, t, rfl⟩ : ∃ c t, k = c :: t := by
    cases k with
    | nil => exact absurd rfl hkne
    | cons c t => exact ⟨c, t, rfl⟩
  simp only [entryInvB, hcs, hkp2, hdrop2, hlen, hoff]
  simp only [beq_self_eq_true, List.isEmpty_cons, Bool.not_false, Bool.true_and,
    Bool.and_true, Bool.and_self, decide_eq_true_eq]
  exact hl64

/-- A canonical well-formed line satisfies the entry invariant. -/
theorem entryInvB_of_canonical (l : tc_line) (k v : List Char)
    (hwf : wfEntry k v = true) (hoff : l.offset = k.length + 1)
    (hlen : l.chars.length = 64) (hcs : cString l.chars = k ++ '=' :: v) :
    entryInvB l = true := by
  obtain ⟨hkB, hvB, hbound⟩ := wfEntry_facts k v hwf
  obtain ⟨hkne, _, hkeq⟩ := validKeyB_facts k hkB
  have hvlen : 1 ≤ v.length := List.length_pos.mpr (validValueB_facts v hvB).1
  apply entryInvB_of_shape l k v hoff hlen hkne hkeq hcs
  rw [hcs]
  simp only [List.length_append, List.length_cons]
  omega

/-- Unpacking the entry invariant. -/
theorem entryInvB_elim (l : tc_line) (h : entryInvB l = true) :
    ∃ k v, l.chars.length = 64 ∧ l.offset = k.length + 1 ∧ k ≠ []
      ∧ (∀ c ∈ k, c ≠ '=' ∧ c ≠ nulc)
      ∧ cString l.chars = k ++ '=' :: v ∧ (cString l.chars).length < 64 := by
  simp only [entryInvB, Bool.and_eq_true, beq_iff_eq, decide_eq_true_eq,
    Bool.not_eq_true'] at h
  obtain ⟨⟨⟨⟨hlen, hoff⟩, hkne⟩, hcs⟩, hslen⟩ := h
  refine ⟨keyPart (cString l.chars), (cString l.chars).drop
    ((keyPart (cString l.chars)).length + 1), hlen, hoff, ?_, ?_, hcs, by omega⟩
  · intro he
    rw [he] at hkne
    simp at hkne
  · intro c hc
    obtain ⟨h1, h2⟩ := keyPart_facts (cString l.chars) c hc
    exact ⟨h2, cString_nul_free l.chars c h1⟩

/-- The entry invariant holds slot-wise on a parse result. -/
theorem storeInvB_of_matches :
    ∀ (es : List (List Char × List Char)) (ls : List tc_line),
    es.length ≤ ls.length →
    (∀ j, j < es.length → lineMatchesP (getN default ls j) (getN ([], []) es j)) →
    (∀ e ∈ es, wfEntry e.1 e.2 = true) →
    storeInvB ls es.length = true
  | [], ls, _, _, _ => by cases ls <;> rfl
  | e :: es', [], hle, _, _ => by simp at hle
  | e :: es', l :: ls', hle, hm, hwf => by
    obtain ⟨k, v⟩ := e
    obtain ⟨hoff, hlen, hcs⟩ := hm 0 (by simp)
    show (entryInvB l && storeInvB ls' es'.length) = true
    rw [entryInvB_of_canonical l k v (hwf (k, v) (List.mem_cons_self _ _)) hoff hlen hcs,
      storeInvB_of_matches es' ls' (by simpa using hle)
        (fun j hj => hm (j+1) (by simp; omega))
        (fun x hx => hwf x (List.mem_cons_of_mem _ hx))]
    rfl

/-- Overwriting a matched entry's value keeps the entry invariant: the key
region and `'='` are untouched, the new value is written just past the
offset and re-terminated. -/
theorem set_line_inv (l : tc_line) (key newv : List Char)
    (hl : entryInvB l = true) (hnv : ∀ c ∈ newv, c ≠ nulc) (hne : newv ≠ [])
    (hb : key.length + newv.length + 2 ≤ 64)
    (hmatch : key_compare key (sub_one_64 l.offset) l.chars = true) :
    entryInvB ⟨l.offset, string_copy_slice_null newv 0 (newv.length - 1)
      l.chars l.offset⟩ = true := by
  obtain ⟨k, vOld, hclen64, hoff, hkne, hkfacts, hcs, hslen⟩ := entryInvB_elim l hl
  have hNL1 : 1 ≤ newv.length := List.length_pos.mpr hne
  have hcl : (cString l.chars).length = k.length + 1 + vOld.length := by
    rw [hcs]; simp; omega
  rcases cString_split l.chars with hsp | ⟨t, hsp⟩
  · rw [hsp] at hslen
    omega
  · have hchars : l.chars = k ++ '=' :: (vOld ++ nulc :: t) := by
      rw [hsp, hcs]
      simp
    -- the match forces the stored key to lead the queried key
    have hm : sub_one_64 l.offset = k.length := by
      rw [hoff]
      simp only [sub_one_64, if_neg (by omega : ¬(k.length + 1 = 0))]
      omega
    have hnul : ∀ j, j < k.length → getN nulc l.chars j ≠ nulc := by
      intro j hj
      rw [hchars, getN_append_left nulc _ _ j hj]
      exact (hkfacts _ (getN_mem nulc k j hj)).2
    rw [hm, key_compare_pref key l.chars k.length (by omega) hnul] at hmatch
    obtain ⟨tt, htt⟩ := hmatch
    have htake : l.chars.take k.length = k := by
      rw [hchars, take_append_len]
    have hklen : k.length ≤ key.length := by
      rw [htake] at htt
      have := congrArg List.length htt
      simp at this
      omega
    have hb2 : k.length + newv.length + 2 ≤ 64 := by omega
    -- the written char region
    have hchars'eq : string_copy_slice_null newv 0 (newv.length - 1) l.chars l.offset
        = setN (copy_fwd newv 0 l.chars (k.length + 1) newv.length)
            (k.length + 1 + newv.length) nulc := by
      unfold string_copy_slice_null
      rw [hoff, show newv.length - 1 - 0 + 1 = newv.length from by omega]
    have hCFlen : (copy_fwd newv 0 l.chars (k.length + 1) newv.length).length = 64 := by
      rw [copy_fwd_length, hclen64]
    have hlen' : (string_copy_slice_null newv 0 (newv.length - 1) l.chars l.offset).length
        = 64 := by
      rw [hchars'eq, length_setN, hCFlen]
    have hcs' : cString (string_copy_slice_null newv 0 (newv.length - 1) l.chars l.offset)
        = k ++ '=' :: newv := by
      apply cString_eq_of_getN
      · simp only [List.length_append, List.length_cons]
        rw [hlen']
        omega
      · intro j hj
        simp only [List.length_append, List.length_cons] at hj
        rw [hchars'eq]
        rcases Nat.lt_trichotomy j k.length with hcase | hcase | hcase
        · rw [getN_setN_ne nulc _ _ j _ (by omega)]
          rw [copy_fwd_getN_lo newv newv.length 0 l.chars (k.length + 1) j (by omega)]
          rw [hchars, getN_append_left nulc _ _ j hcase,
            getN_append_left nulc k ('=' :: newv) j hcase]
        · rw [hcase]
          rw [getN_setN_ne nulc _ _ k.length _ (by omega)]
          rw [copy_fwd_getN_lo newv newv.length 0 l.chars (k.length + 1) k.length
            (by omega)]
          rw [hchars]
          have h1 := getN_append_right nulc k ('=' :: (vOld ++ nulc :: t)) 0
          have h2 := getN_append_right nulc k ('=' :: newv) 0
          simp only [Nat.add_zero] at h1 h2
          rw [h1, h2]
          rfl
        · obtain ⟨j', rfl⟩ : ∃ j', j = k.length + 1 + j' := ⟨j - k.length - 1, by omega⟩
          have hj' : j' < newv.length := by omega
          rw [getN_setN_ne nulc _ _ _ _ (by omega)]
          have hin := copy_fwd_getN_in newv newv.length 0 l.chars (k.length + 1) j' hj'
            (by rw [hclen64]; omega)
          rw [hin]
          have hr := getN_append_right nulc k ('=' :: newv) (1 + j')
          rw [show k.length + (1 + j') = k.length + 1 + j' from by omega] at hr
          rw [hr, show (0 : Nat) + j' = j' from by omega,
            show (1 : Nat) + j' = j' + 1 from by omega]
          rfl
      · intro c hc
        rcases List.mem_append.mp hc with hck | hcv'
        · exact (hkfacts c hck).2
        · rcases List.mem_cons.mp hcv' with rfl | hcv''
          · decide
          · exact hnv c hcv''
      · simp only [List.length_append, List.length_cons]
        rw [hchars'eq]
        rw [show k.length + (newv.length + 1) = k.length + 1 + newv.length from by omega]
        exact getN_setN_self nulc _ _ nulc (by rw [hCFlen]; omega)
    refine entryInvB_of_shape _ k newv ?_ ?_ hkne (fun c hc => (hkfacts c hc).1) ?_ ?_
    · exact hoff
    · exact hlen'
    · exact hcs'
    · show (cString (string_copy_slice_null newv 0 (newv.length - 1)
        l.chars l.offset)).length < 64
      rw [hcs']
      simp only [List.length_append, List.length_cons]
      omega

/-- Lemma: `set_loop` preserves the entry invariant on success. -/
theorem set_loop_inv :
    ∀ (ls : List tc_line) (n : Nat) (key newv : List Char) (ls' : List tc_line),
    storeInvB ls n = true → (∀ c ∈ newv, c ≠ nulc) → newv ≠ [] →
    key.length + newv.length + 2 ≤ 64 →
    set_loop key newv ls n = some ls' → storeInvB ls' n = true
  | ls, 0, _, _, _, _, _, _, _, hset => by
    cases ls <;> simp [set_loop] at hset
  | [], n+1, _, _, _, hinv, _, _, _, _ => by simp [storeInvB] at hinv
  | l :: rest, n+1, key, newv, ls', hinv, hnv, hne, hb, hset => by
    simp only [storeInvB, Bool.and_eq_true] at hinv
    obtain ⟨hl, hrest⟩ := hinv
    by_cases hmatch : key_compare key (sub_one_64 l.offset) l.chars = true
    · rw [set_loop, if_pos hmatch] at hset
      obtain rfl := Option.some.inj hset
      show (entryInvB ⟨l.offset, string_copy_slice_null newv 0 (newv.length - 1)
        l.chars l.offset⟩ && storeInvB rest n) = true
      rw [set_line_inv l key newv hl hnv hne hb hmatch, hrest]
      rfl
    · rw [set_loop, if_neg hmatch] at hset
      rcases hrec : set_loop key newv rest n with _ | rest'
      · rw [hrec] at hset
        simp at hset
      · rw [hrec] at hset
        obtain rfl := Option.some.inj hset
        show (entryInvB l && storeInvB rest' n) = true
        rw [hl, set_loop_inv rest n key newv rest' hrest hnv hne hb hrec]
        rfl

/-- Claim C10, amended: the offset/termination invariant — every entry's
header offset equals len(key) + 1 (the byte just past the `'='`) and its
line prints as one NUL-terminated `key=value` string — holds for every
entry written by parsing well-formed `key=value` lines, and is preserved by
every successful `tc_set_value`.  It does not hold for entries produced by
a keyless value line (see the counterexample), which the amended load part
therefore excludes. -/
theorem c10_theorem :
    (∀ (entries : List (List Char × List Char)) (cfg0 cfg' : tc_config),
      wfEntriesB entries = true → entries.length ≤ TC_CONFIG_MAX_SIZE →
      arenaShapeB cfg0 = true →
      tc_parse_config ⟨cfg0.lines, 0⟩ (serialize_entries entries) = ParseOut.ok cfg' →
      storeInvB cfg'.lines cfg'.size = true)
    ∧ (∀ (cfg : tc_config) (key newv : List Char) (cfg' : tc_config),
      storeInvB cfg.lines cfg.size = true →
      (∀ c ∈ newv, c ≠ nulc) → newv ≠ [] →
      tc_set_value cfg key newv = some cfg' →
      storeInvB cfg'.lines cfg'.size = true) := by
  constructor
  · intro entries cfg0 cfg' hwfE hlen h0 hparse
    simp only [TC_CONFIG_MAX_SIZE] at hlen
    obtain ⟨h0len, h0shape⟩ := arenaShapeB_facts cfg0 h0
    obtain ⟨lines', hEq, h20, _, _, _, hmat⟩ :=
      parse_serialize entries [] cfg0.lines 0 0 ((serialize_entries entries).length + 2)
        hwfE (by omega) h0len h0shape (by omega)
    rw [List.nil_append] at hEq
    simp only [List.length_nil, Nat.zero_add] at hEq
    unfold tc_parse_config at hparse
    rw [hEq] at hparse
    obtain rfl : cfg' = ⟨lines', entries.length⟩ := (ParseOut.ok.inj hparse).symm
    show storeInvB lines' entries.length = true
    exact storeInvB_of_matches entries lines' (by rw [h20]; omega)
      (fun j hj => by simpa using hmat j hj) (wfEntriesB_mem entries hwfE)
  · intro cfg key newv cfg' hinv hnv hne hset
    unfold tc_set_value at hset
    by_cases hb : key.length + newv.length + 2 > TC_LINE_MAX_SIZE
    · rw [if_pos hb] at hset
      simp at hset
    · rw [if_neg hb] at hset
      rcases hrec : set_loop key newv cfg.lines cfg.size with _ | ls'
      · rw [hrec] at hset
        simp at hset
      · rw [hrec] at hset
        obtain rfl := Option.some.inj hset
        show storeInvB ls' cfg.size = true
        exact set_loop_inv cfg.lines cfg.size key newv ls' hinv hnv hne
          (by simp only [TC_LINE_MAX_SIZE] at hb; omega) hrec

/-- Claim C10, witness: both parts of the theorem applied concretely — the
parse of `serialize [("a", "b")]` (the bytes `"a=b\n"`) into the fresh
arena, and a `tc_set_value` of `"zz"` over key `"a"` on the resulting
store. -/
theorem c10_witness :
    wfEntriesB [(str ("a"), str ("b"))] = true
    ∧ tc_parse_config ⟨initConfig.lines, 0⟩ (serialize_entries [(str ("a"), str ("b"))])
        = ParseOut.ok (load_config (tc_load_config initConfig (str ("a=b\n"))))
    ∧ storeInvB (load_config (tc_load_config initConfig (str ("a=b\n")))).lines
        (load_config (tc_load_config initConfig (str ("a=b\n")))).size = true
    ∧ tc_set_value (load_config (tc_load_config initConfig (str ("a=b\n"))))
        (str ("a")) (str ("zz"))
        = some ((tc_set_value (load_config (tc_load_config initConfig (str ("a=b\n"))))
            (str ("a")) (str ("zz"))).getD default)
    ∧ storeInvB ((tc_set_value (load_config (tc_load_config initConfig (str ("a=b\n"))))
          (str ("a")) (str ("zz"))).getD default).lines
        ((tc_set_value (load_config (tc_load_config initConfig (str ("a=b\n"))))
          (str ("a")) (str ("zz"))).getD default).size = true :=
  ⟨by decide, by decide,
    c10_theorem.1 [(str ("a"), str ("b"))] initConfig
      (load_config (tc_load_config initConfig (str ("a=b\n"))))
      (by decide) (by decide) (by decide) (by decide),
    by decide,
    c10_theorem.2 (load_config (tc_load_config initConfig (str ("a=b\n"))))
      (str ("a")) (str ("zz"))
      ((tc_set_value (load_config (tc_load_config initConfig (str ("a=b\n"))))
        (str ("a")) (str ("zz"))).getD default)
      (by decide) (by decide) (by decide) (by decide)⟩
